import Mathlib

/-!
gut: the interactive copy session of `cmd/root.go`

A shallow embedding of the traversal/decision engine of `gut`: the job stack, prompt
derivation (`updateForJob`), choice application (`processLetter`), the message handler
(`Update`), the view, and the two asynchronous commands (`readDir`, `doCopy`).

Conventions of the embedding.

* Go strings are `String`; `path.Join` is modelled on character lists so that it evaluates
  in the kernel.
* The chain `m.job, m.job.prev, m.job.prev.prev, ...` of heap nodes is a `List job`, top
  first; the nil pointer is `[]`. Nodes are never mutated after creation and the model is
  passed by value, so the persistent list is exact. `m.job = m.job.prev` is taking the tail.
* A `tea.Cmd` closure is a value of `Cmd` (the closure's captured arguments); the closure
  body is `Cmd.run`, which runs against an `OS` and records the system calls it makes.
* `Update` can return a nil `tea.Model` and can dereference a nil `*job`; its result type
  `Outcome` keeps both visible.
* Go does not fix whether `return m, m.list.SetItems(nil)` reads `m` before or after the
  call. Both orders are kept (`EvalOrder`); every function that reaches that statement
  takes the order as its first argument, and the general theorems hold for both.
* The bubbles list widget is outside the repository: its title, items and selection are
  fields of `ListModel`; what its own `Update` and `View` do is a parameter (`ListLib`).
-/

namespace Gut

/-! ## path.Join -/

/-- Cuts a path at every slash; the pieces may be empty. -/
def splitSlash : List Char → List (List Char)
  | [] => [[]]
  | c :: cs =>
    match splitSlash cs with
    | [] => [[]]
    | seg :: rest => if c = '/' then [] :: seg :: rest else (c :: seg) :: rest

/-- One path element processed by `path.Clean`; `acc` holds the kept elements, last first. -/
def cleanStep (rooted : Bool) (acc : List (List Char)) (seg : List Char) : List (List Char) :=
  if seg = [] ∨ seg = ['.'] then acc
  else if seg = ['.', '.'] then
    match acc with
    | [] => if rooted then [] else [seg]
    | top :: rest => if top = ['.', '.'] then seg :: acc else rest
  else seg :: acc

/-- Go `path.Clean`: the shortest equivalent path by purely lexical processing. -/
def path.Clean (p : List Char) : List Char :=
  let rooted := p.head? = some '/'
  let kept := ((splitSlash p).foldl (cleanStep rooted) []).reverse
  let body := List.intercalate ['/'] kept
  if rooted then '/' :: body else if body = [] then ['.'] else body

/-- Go `path.Join`: the non-empty elements joined by slashes and cleaned; empty when all
elements are empty. -/
def path.Join (elem : List String) : String :=
  let parts := (elem.filter (fun e => e ≠ "")).map String.data
  if parts = [] then "" else String.mk (path.Clean (List.intercalate ['/'] parts))

/-! ## Data model -/

/-- The part of `os.DirEntry` the program reads: `Name()` and `IsDir()`. -/
structure DirEntry where
  Name : String
  IsDir : Bool
deriving DecidableEq, Repr

/-- A choice of the selection list. -/
structure item where
  id : String
  title : String
deriving DecidableEq, Repr

/-- One node of the job chain, without its `prev` link (the link is the list tail). -/
structure job where
  entry : DirEntry
  parent : String
deriving DecidableEq, Repr

/-- The relative path of a job. -/
def job.Name (j : job) : String := path.Join [j.parent, j.entry.Name]

/-- The messages `Update` receives. `other` stands for any message type `Update` has no
case for (the list widget's own messages). -/
inductive Msg where
  | KeyMsg (key : String)
  | WindowSizeMsg (Width Height : Int)
  | errMsg (error : String)
  | dirReadMsg (entries : List DirEntry) (parent : String)
  | entryCopiedMsg
  | other (tag : Nat)
deriving DecidableEq, Repr

/-- The commands `Update` returns: nil, `tea.Quit`, the two closures of this program with
their captured arguments, and a command of the list widget (kept abstract by a tag). -/
inductive Cmd where
  | nil
  | Quit
  | readDir (root name : String)
  | doCopy (sourceRoot name : String)
  | widget (tag : Nat)
deriving DecidableEq, Repr

/-- Modelled from the spec: the presentation adapter's selection list (bubbles `list.Model`),
which is not part of the repository. Only what the program sets and reads is kept: the
title, the items, the cursor and the size. -/
structure ListModel where
  Title : String
  items : List item
  index : Nat
  width : Int
  height : Int
deriving DecidableEq, Repr

/-- Modelled from the spec: `list.Model.SetItems` replaces the items. The widget returns a
command only while a filter is active, and `DoIt` disables filtering. -/
def ListModel.SetItems (l : ListModel) (i : List item) : ListModel × Cmd :=
  ({ l with items := i }, Cmd.nil)

/-- Modelled from the spec: `list.Model.SelectedItem`, the item under the cursor, nil when
there is none. -/
def ListModel.SelectedItem (l : ListModel) : Option item := l.items[l.index]?

/-- Modelled from the spec: `list.Model.SetSize`. -/
def ListModel.SetSize (l : ListModel) (width height : Int) : ListModel :=
  { l with width := width, height := height }

/-- Modelled from the spec: `list.New(nil, delegate, 0, 0)`. -/
def ListModel.New : ListModel :=
  { Title := "", items := [], index := 0, width := 0, height := 0 }

/-- The behaviour of the list widget and of lipgloss that the program only passes through:
the widget's own message handling (cursor movement and the like, with the widget command it
returns, if any), its rendering, and `docStyle.Render`. -/
structure ListLib where
  Update : ListModel → Msg → ListModel × Option Nat
  View : ListModel → String
  Render : String → String

/-- A widget that ignores every message and renders its title; used for concrete runs. -/
def ListLib.idle : ListLib :=
  { Update := fun l _ => (l, none), View := fun l => l.Title, Render := fun s => s }

/-- The frame size of `docStyle` (margin 1 vertically, 2 horizontally): horizontal and
vertical totals. -/
def docStyle.GetFrameSize : Int × Int := (4, 2)

/-- The session. -/
structure model where
  source : String
  list : ListModel
  err : Option String
  done : Bool
  job : List job
deriving DecidableEq, Repr

/-- What a call of `Update` does: it returns a model (possibly the nil interface value) and
a command, or it dereferences a nil job pointer. -/
inductive Outcome where
  | ret (m : Option model) (cmd : Cmd)
  | nilDeref
deriving DecidableEq, Repr

/-! ## The asynchronous commands -/

/-- The operating system as the two commands see it. -/
structure OS where
  ReadDir : String → Except String (List DirEntry)
  Getwd : Except String String
  Copy : String → String → Option String

/-- A system call made by a command. -/
inductive Call where
  | ReadDir (name : String)
  | Getwd
  | Copy (src dst : String)
deriving DecidableEq, Repr

/-- The body of the closure returned by `readDir(root, name)`. -/
def readDir.run (os : OS) (root name : String) : List Call × Msg :=
  match os.ReadDir (path.Join [root, name]) with
  | .error err => ([Call.ReadDir (path.Join [root, name])], Msg.errMsg err)
  | .ok entries => ([Call.ReadDir (path.Join [root, name])], Msg.dirReadMsg entries name)

/-- The body of the closure returned by `doCopy(sourceRoot, name)`. -/
def doCopy.run (os : OS) (sourceRoot name : String) : List Call × Msg :=
  match os.Getwd with
  | .error getCwdErr => ([Call.Getwd], Msg.errMsg getCwdErr)
  | .ok cwd =>
    let src := path.Join [sourceRoot, name]
    let dst := path.Join [cwd, name]
    match os.Copy src dst with
    | some copyErr => ([Call.Getwd, Call.Copy src dst], Msg.errMsg copyErr)
    | none => ([Call.Getwd, Call.Copy src dst], Msg.entryCopiedMsg)

/-- Running a command of this program: the calls it makes and the message it reports.
The other commands belong to the runtime and the widget. -/
def Cmd.run (os : OS) : Cmd → Option (List Call × Msg)
  | Cmd.readDir root name => some (readDir.run os root name)
  | Cmd.doCopy sourceRoot name => some (doCopy.run os sourceRoot name)
  | _ => none

/-- Whether a command is a listing or copy operation. -/
def Cmd.isOp : Cmd → Bool
  | Cmd.readDir _ _ => true
  | Cmd.doCopy _ _ => true
  | _ => false

/-! ## The decision engine -/

/-- The command `Init` returns. -/
def model.Init (m : model) : Cmd := Cmd.readDir m.source ""

/-- The order of evaluation of the statement `return m, m.list.SetItems(nil)`. Go orders the
calls of a statement among themselves, but not a call against the reading of a variable:
the receiver copy `m` may be read for the return after the call has replaced the items of
`m.list` (`callFirst`) or before it (`copyFirst`). -/
inductive EvalOrder where
  | callFirst
  | copyFirst
deriving DecidableEq, Repr

/-- The statement `return m, m.list.SetItems(nil)`: the command is the one `SetItems`
returns; the model returned has the items replaced when the call comes first and is `m` as
it was when the copy comes first. -/
def model.returnSetItemsNil (ord : EvalOrder) (m : model) : model × Cmd :=
  match ord with
  | EvalOrder.callFirst => ({ m with list := (m.list.SetItems []).1 }, (m.list.SetItems []).2)
  | EvalOrder.copyFirst => (m, (m.list.SetItems []).2)

/-- Prompt derivation. The first branch assigns the empty title and then executes
`return m, m.list.SetItems(nil)`, whose order of evaluation is `ord`; the two other
branches call `SetItems` in a statement of its own and return afterwards. -/
def model.updateForJob (ord : EvalOrder) (m : model) : model × Cmd :=
  match m.job with
  | [] => ({ m with list := { m.list with Title := "" } }).returnSetItemsNil ord
  | j :: _ =>
    if m.done then ({ m with list := { m.list with Title := "" } }).returnSetItemsNil ord
    else if j.entry.IsDir then
      let items := [item.mk "n" "(N)o", item.mk "c" "(C)ompletetly", item.mk "a" "(A)sk"]
      let r := ({ m.list with Title := "Do you want to copy folder " ++ j.Name }).SetItems items
      ({ m with list := r.1 }, r.2)
    else
      let items := [item.mk "n" "(N)o", item.mk "y" "(Y)es"]
      let r := ({ m.list with Title := "Do you want to copy file " ++ j.Name }).SetItems items
      ({ m with list := r.1 }, r.2)

/-- Choice application. -/
def processLetter (ord : EvalOrder) (m : model) (letter : String) : model × Cmd :=
  if letter = "y" then
    match m.job with
    | j :: _ => if !j.entry.IsDir then (m, Cmd.doCopy m.source j.Name) else (m, Cmd.nil)
    | [] => (m, Cmd.nil)
  else if letter = "n" then
    match m.job with
    | _ :: prev => ({ m with job := prev }).updateForJob ord
    | [] => (m, Cmd.nil)
  else if letter = "c" then
    match m.job with
    | j :: _ => if j.entry.IsDir then (m, Cmd.doCopy m.source j.Name) else (m, Cmd.nil)
    | [] => (m, Cmd.nil)
  else if letter = "a" then
    match m.job with
    | j :: prev =>
      if j.entry.IsDir then ({ m with job := prev }, Cmd.readDir m.source j.Name)
      else (m, Cmd.nil)
    | [] => (m, Cmd.nil)
  else (m, Cmd.nil)

/-- The loop of the `dirReadMsg` case: one node per entry, each on top of the previous. -/
def pushEntries (parent : String) : List DirEntry → List job → List job
  | [], stack => stack
  | entry :: rest, stack => pushEntries parent rest ({ entry := entry, parent := parent } :: stack)

/-- The tail of `Update`: the message goes to the list widget. -/
def model.listUpdate (lib : ListLib) (m : model) (msg : Msg) : Outcome :=
  let r := lib.Update m.list msg
  Outcome.ret (some { m with list := r.1 })
    (match r.2 with
     | some tag => Cmd.widget tag
     | none => Cmd.nil)

/-- The message handler. -/
def model.Update (ord : EvalOrder) (lib : ListLib) (m : model) (msg : Msg) : Outcome :=
  match msg with
  | Msg.KeyMsg keypress =>
    if keypress = "ctrl+c" then Outcome.ret (some m) Cmd.Quit
    else if keypress = "y" ∨ keypress = "n" ∨ keypress = "c" ∨ keypress = "a" then
      let r := processLetter ord m keypress
      Outcome.ret (some r.1) r.2
    else if keypress = "enter" then
      match m.list.SelectedItem with
      | some i =>
        let r := processLetter ord m i.id
        Outcome.ret (some r.1) r.2
      | none => Outcome.ret none Cmd.nil
    else m.listUpdate lib msg
  | Msg.WindowSizeMsg Width Height =>
    let hv := docStyle.GetFrameSize
    ({ m with list := m.list.SetSize (Width - hv.1) (Height - hv.2) }).listUpdate lib msg
  | Msg.errMsg error => Outcome.ret (some { m with err := some error }) Cmd.nil
  | Msg.dirReadMsg entries parent =>
    let r := ({ m with job := pushEntries parent entries m.job }).updateForJob ord
    Outcome.ret (some r.1) r.2
  | Msg.entryCopiedMsg =>
    match m.job with
    | [] => Outcome.nilDeref
    | _ :: prev =>
      let r := ({ m with job := prev }).updateForJob ord
      Outcome.ret (some r.1) r.2
  | Msg.other _ => m.listUpdate lib msg

/-- The view. -/
def model.View (lib : ListLib) (m : model) : String :=
  match m.err with
  | some err => "Something went wrong, press Q to quit: " ++ err ++ "\n"
  | none =>
    if m.done then "All done, press Q to quit!"
    else lib.Render (lib.View m.list)

/-- The model `DoIt` starts the program with. -/
def DoIt.model (source : String) : model :=
  { source := source, list := ListModel.New, err := none, done := false, job := [] }

/-! ## Runs of a session

The program state is the model; the operations issued and not yet reported back are kept
beside it as ghost state, each with the job that was on top when the choice issued it. -/

/-- An operation whose result event has not been handled yet. -/
structure Pending where
  cmd : Cmd
  initiator : Option job
deriving DecidableEq, Repr

/-- A session under observation: the model and the outstanding operations, oldest first. -/
structure Session where
  m : model
  pending : List Pending
deriving DecidableEq, Repr

/-- What can happen to a session: a key press, a window resize, another message for the
widget, or the completion of the outstanding operation at position `i` against `os`. -/
inductive Event where
  | key (k : String)
  | resize (Width Height : Int)
  | other (tag : Nat)
  | result (i : Nat) (os : OS)

/-- The session after `Update` returned: the new model, and the returned command added to
the outstanding operations when it is a listing or a copy. The run ends when `Update`
returns the nil model or dereferences nil. -/
def Session.after (top : Option job) (pending : List Pending) : Outcome → Option Session
  | Outcome.ret (some m) cmd =>
    some { m := m, pending := if cmd.isOp then pending ++ [{ cmd := cmd, initiator := top }] else pending }
  | _ => none

/-- One event. A result event is possible only for an operation that is outstanding; it
runs the command, removes it from the outstanding ones and hands its message to `Update`. -/
def Session.step (ord : EvalOrder) (lib : ListLib) (s : Session) : Event → Option Session
  | Event.key k => Session.after s.m.job.head? s.pending (s.m.Update ord lib (Msg.KeyMsg k))
  | Event.resize w h => Session.after s.m.job.head? s.pending (s.m.Update ord lib (Msg.WindowSizeMsg w h))
  | Event.other tag => Session.after s.m.job.head? s.pending (s.m.Update ord lib (Msg.other tag))
  | Event.result i os =>
    match s.pending[i]? with
    | none => none
    | some p =>
      match p.cmd.run os with
      | none => none
      | some r => Session.after s.m.job.head? (s.pending.eraseIdx i) (s.m.Update ord lib r.2)

/-- A sequence of events. -/
def Session.run (ord : EvalOrder) (lib : ListLib) : Session → List Event → Option Session
  | s, [] => some s
  | s, e :: es =>
    match s.step ord lib e with
    | none => none
    | some s1 => Session.run ord lib s1 es

/-- Startup: the model of `DoIt` with the listing of the root, issued by `Init`, outstanding. -/
def Session.start (source : String) : Session :=
  { m := DoIt.model source
    pending := [{ cmd := (DoIt.model source).Init, initiator := none }] }

/-- The keys that `Update` hands to `processLetter`: the four letters, and enter. -/
def isChoiceKey (k : String) : Bool :=
  k = "y" || k = "n" || k = "c" || k = "a" || k = "enter"

/-- Whether an event may be handled in a session by a user who waits: a choice key only
while no operation is outstanding, anything else at any time. -/
def Session.allows (s : Session) : Event → Bool
  | Event.key k => !isChoiceKey k || s.pending.isEmpty
  | _ => true

/-- Whether the user waits throughout a run: every choice key is handled while no operation
is outstanding. -/
def Session.waits (ord : EvalOrder) (lib : ListLib) : Session → List Event → Bool
  | _, [] => true
  | s, e :: es =>
    s.allows e &&
    (match s.step ord lib e with
     | none => true
     | some s1 => Session.waits ord lib s1 es)

/-! ## Concrete worlds and sessions of the scenarios -/

/-- A file entry. -/
def fileEntry (name : String) : DirEntry := { Name := name, IsDir := false }

/-- A directory entry. -/
def dirEntry (name : String) : DirEntry := { Name := name, IsDir := true }

/-- A world in which every listing returns `entries`, the working directory is `cwd` and
every copy succeeds. -/
def OS.fine (cwd : String) (entries : List DirEntry) : OS :=
  { ReadDir := fun _ => .ok entries, Getwd := .ok cwd, Copy := fun _ _ => none }

/-- A world in which every listing and every copy fails with `message`. -/
def OS.failing (message : String) : OS :=
  { ReadDir := fun _ => .error message, Getwd := .ok "/cwd", Copy := fun _ _ => some message }

/-- A session with the given stack, prompt derived, and nothing else set. The list of
`DoIt` has no items, so the order of evaluation makes no difference here. -/
def sessionOn (source : String) (stack : List job) : model :=
  (({ DoIt.model source with job := stack }).updateForJob EvalOrder.callFirst).1

/-- The model `m` after its last job has gone and the prompt was derived with the copy
first: the stack and the title are empty, the items are still the ones of `m`. -/
def emptied (m : model) : model :=
  { m with job := [], list := { m.list with Title := "" } }

/-- Letters applied one after the other, each to the model the previous one returned,
with the commands returned along the way. -/
def processLetters (ord : EvalOrder) (m : model) : List String → model × List Cmd
  | [] => (m, [])
  | letter :: rest =>
    ((processLetters ord (processLetter ord m letter).1 rest).1,
      (processLetter ord m letter).2
        :: (processLetters ord (processLetter ord m letter).1 rest).2)

/-- A world whose source root holds the files `a.txt` and `b.txt`, listed in that order. -/
def OS.twoFiles : OS := OS.fine "/cwd" [fileEntry "a.txt", fileEntry "b.txt"]

/-- A world whose source root holds the single file `a.txt`. -/
def OS.oneFile : OS := OS.fine "/cwd" [fileEntry "a.txt"]

/-- The job of a root-level file. -/
def rootFile (name : String) : job := { entry := fileEntry name, parent := "" }

/-- The invariant of waiting runs: at most one operation is outstanding, and an outstanding
copy was issued by the job that is on top. -/
def Session.inSync (s : Session) : Prop :=
  s.pending = [] ∨
  ∃ p, s.pending = [p] ∧
    ∀ src name, p.cmd = Cmd.doCopy src name →
      ∃ j rest, s.m.job = j :: rest ∧ p.initiator = some j



/-! ## Facts about the handlers -/

theorem pushEntries_eq (parent : String) (entries : List DirEntry) (stack : List job) :
    pushEntries parent entries stack
      = (entries.map (fun e => job.mk e parent)).reverse ++ stack := by
  induction entries generalizing stack with
  | nil => rfl
  | cons e es ih => simp [pushEntries, ih]

theorem updateForJob_frame (ord : EvalOrder) (m : model) :
    (m.updateForJob ord).1.job = m.job ∧ (m.updateForJob ord).1.err = m.err ∧
      (m.updateForJob ord).1.done = m.done ∧ (m.updateForJob ord).1.source = m.source ∧
      (m.updateForJob ord).2 = Cmd.nil := by
  unfold model.updateForJob
  cases hj : m.job with
  | nil => cases ord <;> simp [model.returnSetItemsNil, ListModel.SetItems]
  | cons j s =>
    by_cases hdone : m.done = true
    · cases ord <;> simp [hdone, model.returnSetItemsNil, ListModel.SetItems]
    · by_cases hdir : j.entry.IsDir = true <;> simp [hdone, hdir, ListModel.SetItems]

/-- What `processLetter` can do, whatever the letter. -/
theorem processLetter_cases (ord : EvalOrder) (m : model) (letter : String) :
    processLetter ord m letter = (m, Cmd.nil) ∨
    (∃ j s, m.job = j :: s ∧ processLetter ord m letter = (m, Cmd.doCopy m.source j.Name)) ∨
    (∃ j s, m.job = j :: s ∧
      processLetter ord m letter = ((({ m with job := s }).updateForJob ord).1, Cmd.nil)) ∨
    (∃ j s, m.job = j :: s ∧
      processLetter ord m letter = ({ m with job := s }, Cmd.readDir m.source j.Name)) := by
  unfold processLetter
  cases hj : m.job with
  | nil => simp
  | cons j s =>
    by_cases hdir : j.entry.IsDir = true
    · by_cases h1 : letter = "y"
      · simp [h1, hdir]
      · by_cases h2 : letter = "n"
        · right; right; left
          refine ⟨j, s, rfl, ?_⟩
          simp only [h2]
          simp
          exact Prod.ext rfl (updateForJob_frame ord _).2.2.2.2
        · by_cases h3 : letter = "c"
          · simp [h3, hdir]
          · by_cases h4 : letter = "a"
            · right; right; right
              exact ⟨j, s, rfl, by simp [h4, hdir]⟩
            · simp [h1, h2, h3, h4]
    · by_cases h1 : letter = "y"
      · simp [h1, hdir]
      · by_cases h2 : letter = "n"
        · right; right; left
          refine ⟨j, s, rfl, ?_⟩
          simp only [h2]
          simp
          exact Prod.ext rfl (updateForJob_frame ord _).2.2.2.2
        · by_cases h3 : letter = "c"
          · simp [h3, hdir]
          · by_cases h4 : letter = "a"
            · simp [h4, hdir]
            · simp [h1, h2, h3, h4]

/-- A message passed to the widget changes the list only and issues no operation. -/
theorem listUpdate_spec (lib : ListLib) (m : model) (msg : Msg) :
    ∃ cmd, m.listUpdate lib msg
        = Outcome.ret (some { m with list := (lib.Update m.list msg).1 }) cmd ∧
      cmd.isOp = false := by
  unfold model.listUpdate
  cases h : (lib.Update m.list msg).2 with
  | none => exact ⟨Cmd.nil, by simp [h], rfl⟩
  | some tag => exact ⟨Cmd.widget tag, by simp [h], rfl⟩

/-- What `Update` does with a key press: it returns the nil model (enter without a
selection), or it changes at most the list and issues no operation (a key that is not a
choice key), or it is `processLetter` (a choice key). -/
theorem Update_key_cases (ord : EvalOrder) (lib : ListLib) (m : model) (k : String) :
    m.Update ord lib (Msg.KeyMsg k) = Outcome.ret none Cmd.nil ∨
    (∃ l cmd, m.Update ord lib (Msg.KeyMsg k) = Outcome.ret (some { m with list := l }) cmd ∧
      cmd.isOp = false ∧ isChoiceKey k = false) ∨
    (∃ letter, m.Update ord lib (Msg.KeyMsg k)
      = Outcome.ret (some (processLetter ord m letter).1) (processLetter ord m letter).2 ∧
      isChoiceKey k = true) := by
  unfold model.Update
  by_cases h0 : k = "ctrl+c"
  · right; left
    refine ⟨m.list, Cmd.Quit, by simp [h0], rfl, by subst h0; decide⟩
  · by_cases h1 : k = "y" ∨ k = "n" ∨ k = "c" ∨ k = "a"
    · right; right
      refine ⟨k, by simp only [h0, h1, if_true, if_false], ?_⟩
      rcases h1 with rfl | rfl | rfl | rfl <;> decide
    · by_cases h2 : k = "enter"
      · cases hsel : m.list.SelectedItem with
        | none => left; simp [h0, h1, h2, hsel]
        | some i =>
          right; right
          refine ⟨i.id, ?_, by subst h2; decide⟩
          subst h2
          simp [hsel]
      · right; left
        obtain ⟨cmd, hcmd, hop⟩ := listUpdate_spec lib m (Msg.KeyMsg k)
        refine ⟨(lib.Update m.list (Msg.KeyMsg k)).1, cmd,
          by simp only [h0, h1, h2, if_false]; exact hcmd, hop, ?_⟩
        · simp only [not_or] at h1
          simp [isChoiceKey, h1.1, h1.2.1, h1.2.2.1, h1.2.2.2, h2]

/-- The messages a command of this program can report. -/
theorem Cmd.run_msg (os : OS) (c : Cmd) (r : List Call × Msg) (h : c.run os = some r) :
    (∃ e, r.2 = Msg.errMsg e) ∨
    (∃ root name entries, c = Cmd.readDir root name ∧ r.2 = Msg.dirReadMsg entries name) ∨
    (∃ src name, c = Cmd.doCopy src name ∧ r.2 = Msg.entryCopiedMsg) := by
  cases c with
  | readDir root name =>
    simp only [Cmd.run, readDir.run, Option.some.injEq] at h
    subst h
    cases hr : os.ReadDir (path.Join [root, name]) with
    | error e => left; exact ⟨e, rfl⟩
    | ok entries => right; left; exact ⟨root, name, entries, rfl, rfl⟩
  | doCopy src name =>
    simp only [Cmd.run, doCopy.run, Option.some.injEq] at h
    subst h
    cases hw : os.Getwd with
    | error e => left; exact ⟨e, rfl⟩
    | ok cwd =>
      cases hc : os.Copy (path.Join [src, name]) (path.Join [cwd, name]) with
      | some e => left; exact ⟨e, by simp [hc]⟩
      | none => right; right; exact ⟨src, name, rfl, by simp [hc]⟩
  | nil => simp [Cmd.run] at h
  | Quit => simp [Cmd.run] at h
  | widget t => simp [Cmd.run] at h

/-- Handling an error event. -/
theorem Update_errMsg (ord : EvalOrder) (lib : ListLib) (m : model) (e : String) :
    m.Update ord lib (Msg.errMsg e) = Outcome.ret (some { m with err := some e }) Cmd.nil := rfl

/-- Handling a listing result. -/
theorem Update_dirReadMsg (ord : EvalOrder) (lib : ListLib) (m : model) (entries : List DirEntry)
    (parent : String) :
    m.Update ord lib (Msg.dirReadMsg entries parent)
      = Outcome.ret
          (some (({ m with job := (entries.map (fun e => job.mk e parent)).reverse ++ m.job }
            ).updateForJob ord).1) Cmd.nil := by
  simp only [model.Update, pushEntries_eq]
  rw [(updateForJob_frame ord _).2.2.2.2]

/-- Handling a copy result on a non-empty stack. -/
theorem Update_entryCopiedMsg (ord : EvalOrder) (lib : ListLib) (m : model) (j : job) (rest : List job)
    (h : m.job = j :: rest) :
    m.Update ord lib Msg.entryCopiedMsg
      = Outcome.ret (some (({ m with job := rest }).updateForJob ord).1) Cmd.nil := by
  simp only [model.Update, h]
  rw [(updateForJob_frame ord _).2.2.2.2]

theorem Session.inSync_start (source : String) : (Session.start source).inSync := by
  right
  refine ⟨_, rfl, ?_⟩
  intro src name h
  simp [model.Init] at h

/-- A message for the widget keeps the stack and the outstanding operations. -/
theorem Session.after_listUpdate (lib : ListLib) (s s1 : Session) (msg : Msg)
    (m0 : model) (h0 : m0.job = s.m.job)
    (h : Session.after s.m.job.head? s.pending (m0.listUpdate lib msg) = some s1) :
    s1.m.job = s.m.job ∧ s1.pending = s.pending := by
  obtain ⟨cmd, hcmd, hop⟩ := listUpdate_spec lib m0 msg
  rw [hcmd] at h
  simp only [Session.after, hop, Bool.false_eq_true, if_false, Option.some.injEq] at h
  subst h
  exact ⟨h0, rfl⟩

theorem Session.inSync_step (ord : EvalOrder) (lib : ListLib) (s s1 : Session) (e : Event)
    (hs : s.inSync) (hallow : s.allows e = true) (hstep : s.step ord lib e = some s1) :
    s1.inSync := by
  cases e with
  | key k =>
    simp only [Session.step] at hstep
    rcases Update_key_cases ord lib s.m k with h | ⟨l, cmd, h, hop, _⟩ | ⟨letter, h, hk⟩
    · rw [h] at hstep; simp [Session.after] at hstep
    · rw [h] at hstep
      simp only [Session.after, hop, Bool.false_eq_true, if_false, Option.some.injEq] at hstep
      subst hstep
      rcases hs with hs | ⟨p, hp, hinit⟩
      · left; exact hs
      · right; exact ⟨p, hp, hinit⟩
    · have hempty : s.pending = [] := by
        simpa [Session.allows, hk] using hallow
      rw [h] at hstep
      rcases processLetter_cases ord s.m letter with hc | ⟨j, rest, hj, hc⟩ | ⟨j, rest, hj, hc⟩ |
        ⟨j, rest, hj, hc⟩
      · rw [hc] at hstep
        simp only [Session.after, Cmd.isOp, Bool.false_eq_true, if_false,
          Option.some.injEq] at hstep
        subst hstep; left; exact hempty
      · rw [hc] at hstep
        simp only [Session.after, Cmd.isOp, if_true, Option.some.injEq] at hstep
        subst hstep; right
        refine ⟨⟨Cmd.doCopy s.m.source j.Name, s.m.job.head?⟩, by simp [hempty], ?_⟩
        intro src name _
        exact ⟨j, rest, hj, by simp [hj]⟩
      · rw [hc] at hstep
        simp only [Session.after, Cmd.isOp, Bool.false_eq_true, if_false,
          Option.some.injEq] at hstep
        subst hstep; left; exact hempty
      · rw [hc] at hstep
        simp only [Session.after, Cmd.isOp, if_true, Option.some.injEq] at hstep
        subst hstep; right
        refine ⟨⟨Cmd.readDir s.m.source j.Name, s.m.job.head?⟩, by simp [hempty], ?_⟩
        intro src name habs
        simp at habs
  | resize w h =>
    simp only [Session.step, model.Update] at hstep
    obtain ⟨hjob, hpend⟩ := Session.after_listUpdate lib s s1 _ _ (by rfl) hstep
    rcases hs with hs | ⟨p, hp, hinit⟩
    · left; rw [hpend]; exact hs
    · right; refine ⟨p, by rw [hpend]; exact hp, ?_⟩
      intro src name hc
      simpa [hjob] using hinit src name hc
  | other tag =>
    simp only [Session.step, model.Update] at hstep
    obtain ⟨hjob, hpend⟩ := Session.after_listUpdate lib s s1 _ _ (by rfl) hstep
    rcases hs with hs | ⟨p, hp, hinit⟩
    · left; rw [hpend]; exact hs
    · right; refine ⟨p, by rw [hpend]; exact hp, ?_⟩
      intro src name hc
      simpa [hjob] using hinit src name hc
  | result i os =>
    simp only [Session.step] at hstep
    rcases hs with hs | ⟨p, hp, _⟩
    · simp [hs] at hstep
    · left
      rw [hp] at hstep
      cases i with
      | succ n => simp at hstep
      | zero =>
        simp only [List.getElem?_cons_zero, List.eraseIdx_cons_zero] at hstep
        cases hrun : p.cmd.run os with
        | none => simp [hrun] at hstep
        | some r =>
          simp only [hrun] at hstep
          rcases Cmd.run_msg os p.cmd r hrun with ⟨e, hm⟩ | ⟨_, _, entries, _, hm⟩ | ⟨_, _, _, hm⟩
          · rw [hm, Update_errMsg] at hstep
            simp only [Session.after, Cmd.isOp, Bool.false_eq_true, if_false,
              Option.some.injEq] at hstep
            subst hstep; rfl
          · rw [hm, Update_dirReadMsg] at hstep
            simp only [Session.after, Cmd.isOp, Bool.false_eq_true, if_false,
              Option.some.injEq] at hstep
            subst hstep; rfl
          · rw [hm] at hstep
            cases hj : s.m.job with
            | nil => simp [model.Update, hj, Session.after] at hstep
            | cons j rest =>
              rw [Update_entryCopiedMsg ord lib s.m j rest hj] at hstep
              simp only [Session.after, Cmd.isOp, Bool.false_eq_true, if_false,
                Option.some.injEq] at hstep
              subst hstep; rfl

theorem Session.inSync_run (ord : EvalOrder) (lib : ListLib) (events : List Event) (s s1 : Session)
    (hs : s.inSync) (hwaits : Session.waits ord lib s events = true)
    (hrun : Session.run ord lib s events = some s1) : s1.inSync := by
  induction events generalizing s with
  | nil =>
    simp only [Session.run, Option.some.injEq] at hrun
    subst hrun; exact hs
  | cons e es ih =>
    simp only [Session.run] at hrun
    simp only [Session.waits, Bool.and_eq_true] at hwaits
    cases hstep : s.step ord lib e with
    | none => simp [hstep] at hrun
    | some s2 =>
      simp only [hstep] at hrun hwaits
      exact ih s2 (Session.inSync_step ord lib s s2 e hs hwaits.1 hstep) hwaits.2 hrun

/-! ## Properties of the session -/

/-- C1 (Ask expansion). On a stack `d :: s` with `d` a directory, the letter "a" returns the
model with stack `s` and exactly the command `readDir(source, d.Name())`; run in a world
where the listing of `join(source, d.Name())` succeeds, that command makes that one
`ReadDir` call and reports the entries with parent `d.Name()`; and handling that report
returns the model whose stack is one job per entry, each with parent `d.Name()`, last
entry on top, pushed on `s`, with no further command. -/
theorem ask_expands_directory (ord : EvalOrder) (lib : ListLib) (m : model) (d : job) (s : List job)
    (htop : m.job = d :: s) (hdir : d.entry.IsDir = true) :
    processLetter ord m "a" = ({ m with job := s }, Cmd.readDir m.source d.Name) ∧
    (∀ (os : OS) (entries : List DirEntry),
      os.ReadDir (path.Join [m.source, d.Name]) = .ok entries →
      Cmd.run os (Cmd.readDir m.source d.Name)
        = some ([Call.ReadDir (path.Join [m.source, d.Name])],
            Msg.dirReadMsg entries d.Name)) ∧
    (∀ entries : List DirEntry,
      model.Update ord lib { m with job := s } (Msg.dirReadMsg entries d.Name)
        = Outcome.ret
            (some (({ m with job := (entries.map (fun e => job.mk e d.Name)).reverse ++ s }
              ).updateForJob ord).1) Cmd.nil ∧
      ((({ m with job := (entries.map (fun e => job.mk e d.Name)).reverse ++ s }
          ).updateForJob ord).1).job
        = (entries.map (fun e => job.mk e d.Name)).reverse ++ s) := by
  refine ⟨?_, ?_, ?_⟩
  · simp [processLetter, htop, hdir]
  · intro os entries h
    simp [Cmd.run, readDir.run, h]
  · intro entries
    refine ⟨?_, (updateForJob_frame ord _).1⟩
    simp only [model.Update, pushEntries_eq]
    rw [(updateForJob_frame ord _).2.2.2.2]

/-- Scenario B: the root holds the directory `d` with `x.txt` in it; "a" on `d` lists `d`,
and the listing leaves the single job `x.txt` with parent `d`, prompted as `d/x.txt`, in
either order of evaluation. -/
theorem ask_expands_directory_witness :
    (sessionOn "root" [job.mk (dirEntry "d") ""]).job = [job.mk (dirEntry "d") ""] ∧
    (job.mk (dirEntry "d") "").entry.IsDir = true ∧
    processLetter EvalOrder.callFirst (sessionOn "root" [job.mk (dirEntry "d") ""]) "a"
      = ({ sessionOn "root" [job.mk (dirEntry "d") ""] with job := [] },
          Cmd.readDir "root" "d") ∧
    model.Update EvalOrder.callFirst ListLib.idle
        { sessionOn "root" [job.mk (dirEntry "d") ""] with job := [] }
        (Msg.dirReadMsg [fileEntry "x.txt"] "d")
      = Outcome.ret (some (sessionOn "root" [job.mk (fileEntry "x.txt") "d"])) Cmd.nil ∧
    processLetter EvalOrder.copyFirst (sessionOn "root" [job.mk (dirEntry "d") ""]) "a"
      = ({ sessionOn "root" [job.mk (dirEntry "d") ""] with job := [] },
          Cmd.readDir "root" "d") ∧
    model.Update EvalOrder.copyFirst ListLib.idle
        { sessionOn "root" [job.mk (dirEntry "d") ""] with job := [] }
        (Msg.dirReadMsg [fileEntry "x.txt"] "d")
      = Outcome.ret (some (sessionOn "root" [job.mk (fileEntry "x.txt") "d"])) Cmd.nil ∧
    (sessionOn "root" [job.mk (fileEntry "x.txt") "d"]).list.Title
      = "Do you want to copy file d/x.txt" :=
  ⟨rfl, rfl,
    (ask_expands_directory EvalOrder.callFirst ListLib.idle
      (sessionOn "root" [job.mk (dirEntry "d") ""]) (job.mk (dirEntry "d") "") [] rfl rfl).1,
    ((ask_expands_directory EvalOrder.callFirst ListLib.idle
      (sessionOn "root" [job.mk (dirEntry "d") ""]) (job.mk (dirEntry "d") "") [] rfl
      rfl).2.2 [fileEntry "x.txt"]).1,
    (ask_expands_directory EvalOrder.copyFirst ListLib.idle
      (sessionOn "root" [job.mk (dirEntry "d") ""]) (job.mk (dirEntry "d") "") [] rfl rfl).1,
    ((ask_expands_directory EvalOrder.copyFirst ListLib.idle
      (sessionOn "root" [job.mk (dirEntry "d") ""]) (job.mk (dirEntry "d") "") [] rfl
      rfl).2.2 [fileEntry "x.txt"]).1,
    by decide⟩

/-- C2 (Copy arguments). With a file on top and the letter "y", or a directory on top and
the letter "c", `processLetter` returns the model unchanged (the job is still on top) and
exactly the command `doCopy(source, p)` for the job's relative path
`p = join(parent, name)`; run in a world whose working directory is `cwd`, that command
makes exactly one copy call, from `join(source, p)` to `join(cwd, p)`. -/
theorem copy_arguments (ord : EvalOrder) (m : model) (j : job) (s : List job) (letter : String)
    (htop : m.job = j :: s)
    (hletter : (letter = "y" ∧ j.entry.IsDir = false) ∨ (letter = "c" ∧ j.entry.IsDir = true)) :
    processLetter ord m letter
      = (m, Cmd.doCopy m.source (path.Join [j.parent, j.entry.Name])) ∧
    (processLetter ord m letter).1.job = j :: s ∧
    ∀ (os : OS) (cwd : String), os.Getwd = .ok cwd →
      (Cmd.run os (processLetter ord m letter).2).map Prod.fst
        = some [Call.Getwd,
            Call.Copy (path.Join [m.source, path.Join [j.parent, j.entry.Name]])
              (path.Join [cwd, path.Join [j.parent, j.entry.Name]])] := by
  have h1 : processLetter ord m letter
      = (m, Cmd.doCopy m.source (path.Join [j.parent, j.entry.Name])) := by
    rcases hletter with ⟨rfl, hf⟩ | ⟨rfl, ht⟩
    · simp [processLetter, htop, hf, job.Name]
    · simp [processLetter, htop, ht, job.Name]
  refine ⟨h1, by rw [h1]; exact htop, ?_⟩
  intro os cwd hcwd
  rw [h1]
  simp only [Cmd.run, doCopy.run, hcwd]
  cases os.Copy (path.Join [m.source, path.Join [j.parent, j.entry.Name]])
    (path.Join [cwd, path.Join [j.parent, j.entry.Name]]) <;> rfl

/-- Scenario A and two nested jobs. The root-level file `a.txt` answered "y" is copied from
`root/a.txt` to `/cwd/a.txt`; the file `x.txt` of the directory `d` answered "y" is copied
from `root/d/x.txt` to `/cwd/d/x.txt`; the directory `sub` of `d` answered "c" is copied
from `root/d/sub` to `/cwd/d/sub`. -/
theorem copy_arguments_witness :
    (sessionOn "root" [rootFile "a.txt"]).job = [rootFile "a.txt"] ∧
    (Cmd.run (OS.fine "/cwd" [])
        (processLetter EvalOrder.callFirst (sessionOn "root" [rootFile "a.txt"]) "y").2
      ).map Prod.fst
      = some [Call.Getwd, Call.Copy "root/a.txt" "/cwd/a.txt"] ∧
    processLetter EvalOrder.copyFirst
        (sessionOn "root" [job.mk (fileEntry "x.txt") "d", rootFile "a.txt"]) "y"
      = (sessionOn "root" [job.mk (fileEntry "x.txt") "d", rootFile "a.txt"],
          Cmd.doCopy "root" "d/x.txt") ∧
    (Cmd.run (OS.fine "/cwd" [])
        (processLetter EvalOrder.copyFirst
          (sessionOn "root" [job.mk (fileEntry "x.txt") "d", rootFile "a.txt"]) "y").2
      ).map Prod.fst
      = some [Call.Getwd, Call.Copy "root/d/x.txt" "/cwd/d/x.txt"] ∧
    (Cmd.run (OS.fine "/cwd" [])
        (processLetter EvalOrder.callFirst
          (sessionOn "root" [job.mk (dirEntry "sub") "d"]) "c").2
      ).map Prod.fst
      = some [Call.Getwd, Call.Copy "root/d/sub" "/cwd/d/sub"] :=
  ⟨rfl,
    (copy_arguments EvalOrder.callFirst (sessionOn "root" [rootFile "a.txt"])
      (rootFile "a.txt") [] "y" rfl (Or.inl ⟨rfl, rfl⟩)).2.2 (OS.fine "/cwd" []) "/cwd" rfl,
    (copy_arguments EvalOrder.copyFirst
      (sessionOn "root" [job.mk (fileEntry "x.txt") "d", rootFile "a.txt"])
      (job.mk (fileEntry "x.txt") "d") [rootFile "a.txt"] "y" rfl (Or.inl ⟨rfl, rfl⟩)).1,
    (copy_arguments EvalOrder.copyFirst
      (sessionOn "root" [job.mk (fileEntry "x.txt") "d", rootFile "a.txt"])
      (job.mk (fileEntry "x.txt") "d") [rootFile "a.txt"] "y" rfl (Or.inl ⟨rfl, rfl⟩)).2.2
      (OS.fine "/cwd" []) "/cwd" rfl,
    (copy_arguments EvalOrder.callFirst (sessionOn "root" [job.mk (dirEntry "sub") "d"])
      (job.mk (dirEntry "sub") "d") [] "c" rfl (Or.inr ⟨rfl, rfl⟩)).2.2
      (OS.fine "/cwd" []) "/cwd" rfl⟩

/-- C3, as stated, fails, in either order of evaluation. The root lists `a.txt`, `b.txt`;
"y" on the top job `b.txt` issues its copy, "n" pops `b.txt` before the copy reports back,
and the copy-succeeded event then removes `a.txt`, which is not the job that issued the
copy. -/
theorem copy_success_pops_other_job :
    Session.run EvalOrder.callFirst ListLib.idle (Session.start "root")
        [Event.result 0 OS.twoFiles, Event.key "y", Event.key "n"]
      = some { m := sessionOn "root" [rootFile "a.txt"]
               pending := [{ cmd := Cmd.doCopy "root" "b.txt"
                             initiator := some (rootFile "b.txt") }] } ∧
    Session.run EvalOrder.copyFirst ListLib.idle (Session.start "root")
        [Event.result 0 OS.twoFiles, Event.key "y", Event.key "n"]
      = some { m := sessionOn "root" [rootFile "a.txt"]
               pending := [{ cmd := Cmd.doCopy "root" "b.txt"
                             initiator := some (rootFile "b.txt") }] } ∧
    (Cmd.run OS.twoFiles (Cmd.doCopy "root" "b.txt")).map Prod.snd = some Msg.entryCopiedMsg ∧
    Session.step EvalOrder.callFirst ListLib.idle
        { m := sessionOn "root" [rootFile "a.txt"]
          pending := [{ cmd := Cmd.doCopy "root" "b.txt"
                        initiator := some (rootFile "b.txt") }] }
        (Event.result 0 OS.twoFiles)
      = some { m := sessionOn "root" [], pending := [] } ∧
    Session.step EvalOrder.copyFirst ListLib.idle
        { m := sessionOn "root" [rootFile "a.txt"]
          pending := [{ cmd := Cmd.doCopy "root" "b.txt"
                        initiator := some (rootFile "b.txt") }] }
        (Event.result 0 OS.twoFiles)
      = some { m := emptied (sessionOn "root" [rootFile "a.txt"]), pending := [] } ∧
    (sessionOn "root" []).job = [] ∧
    (emptied (sessionOn "root" [rootFile "a.txt"])).job = [] ∧
    rootFile "a.txt" ≠ rootFile "b.txt" := by
  and_intros <;> decide

/-- C3, amended. In every run from startup in which the user waits (no choice key is
handled while an operation is outstanding), when the result of an outstanding copy is a
success, handling it succeeds and removes exactly the job whose choice issued that copy:
the stack before is that job on top of the stack after. -/
theorem copy_success_pops_initiator (ord : EvalOrder) (lib : ListLib) (source : String) (events : List Event)
    (s : Session) (i : Nat) (os : OS) (p : Pending)
    (hrun : Session.run ord lib (Session.start source) events = some s)
    (hwaits : Session.waits ord lib (Session.start source) events = true)
    (hp : s.pending[i]? = some p)
    (hok : (p.cmd.run os).map Prod.snd = some Msg.entryCopiedMsg) :
    ∃ j s1, p.initiator = some j ∧ s.step ord lib (Event.result i os) = some s1 ∧
      s.m.job = j :: s1.m.job ∧ s1.pending = [] := by
  have hinv := Session.inSync_run ord lib events _ s (Session.inSync_start source) hwaits hrun
  rcases hinv with hnone | ⟨q, hq, hinit⟩
  · simp [hnone] at hp
  · rw [hq] at hp
    cases i with
    | succ n => simp at hp
    | zero =>
      simp only [List.getElem?_cons_zero, Option.some.injEq] at hp
      subst hp
      cases hr : q.cmd.run os with
      | none => simp [hr] at hok
      | some r =>
        simp only [hr, Option.map_some', Option.some.injEq] at hok
        rcases Cmd.run_msg os q.cmd r hr with ⟨e, hm⟩ | ⟨_, _, _, _, hm⟩ | ⟨src, name, hc, _⟩
        · rw [hm] at hok; simp at hok
        · rw [hm] at hok; simp at hok
        · obtain ⟨j, rest, hj, hi⟩ := hinit src name hc
          refine ⟨j, { m := (({ s.m with job := rest }).updateForJob ord).1, pending := [] }, hi, ?_, ?_, rfl⟩
          · simp only [Session.step, hq, List.getElem?_cons_zero, hr, hok,
              List.eraseIdx_cons_zero]
            rw [Update_entryCopiedMsg ord lib s.m j rest hj]
            rfl
          · rw [hj, (updateForJob_frame ord _).1]

/-- Scenario A as a run: the root lists `a.txt`, "y" issues its copy, and the copy's
success removes `a.txt`, the job that issued it. -/
theorem copy_success_pops_initiator_witness :
    Session.run EvalOrder.copyFirst ListLib.idle (Session.start "root")
        [Event.result 0 OS.oneFile, Event.key "y"]
      = some { m := sessionOn "root" [rootFile "a.txt"]
               pending := [{ cmd := Cmd.doCopy "root" "a.txt"
                             initiator := some (rootFile "a.txt") }] } ∧
    Session.waits EvalOrder.copyFirst ListLib.idle (Session.start "root")
        [Event.result 0 OS.oneFile, Event.key "y"] = true ∧
    ∃ j s1, (Pending.mk (Cmd.doCopy "root" "a.txt") (some (rootFile "a.txt"))).initiator = some j ∧
      Session.step EvalOrder.copyFirst ListLib.idle
          { m := sessionOn "root" [rootFile "a.txt"]
            pending := [{ cmd := Cmd.doCopy "root" "a.txt"
                          initiator := some (rootFile "a.txt") }] }
          (Event.result 0 OS.oneFile) = some s1 ∧
      (sessionOn "root" [rootFile "a.txt"]).job = j :: s1.m.job ∧ s1.pending = [] :=
  ⟨by decide, by decide,
    copy_success_pops_initiator EvalOrder.copyFirst ListLib.idle "root"
      [Event.result 0 OS.oneFile, Event.key "y"]
      { m := sessionOn "root" [rootFile "a.txt"]
        pending := [{ cmd := Cmd.doCopy "root" "a.txt"
                      initiator := some (rootFile "a.txt") }] }
      0 OS.oneFile (Pending.mk (Cmd.doCopy "root" "a.txt") (some (rootFile "a.txt")))
      (by decide) (by decide) (by decide) (by decide)⟩

/-- C4, as stated, fails, in either order of evaluation. The root lists `a.txt`; "y" typed
twice issues the copy of `a.txt` twice, so two operations are outstanding: choice
application does issue an operation while another is outstanding. -/
theorem two_copies_outstanding :
    Session.run EvalOrder.callFirst ListLib.idle (Session.start "root")
        [Event.result 0 OS.oneFile, Event.key "y", Event.key "y"]
      = some { m := sessionOn "root" [rootFile "a.txt"]
               pending := [{ cmd := Cmd.doCopy "root" "a.txt"
                             initiator := some (rootFile "a.txt") },
                           { cmd := Cmd.doCopy "root" "a.txt"
                             initiator := some (rootFile "a.txt") }] } ∧
    Session.run EvalOrder.copyFirst ListLib.idle (Session.start "root")
        [Event.result 0 OS.oneFile, Event.key "y", Event.key "y"]
      = some { m := sessionOn "root" [rootFile "a.txt"]
               pending := [{ cmd := Cmd.doCopy "root" "a.txt"
                             initiator := some (rootFile "a.txt") },
                           { cmd := Cmd.doCopy "root" "a.txt"
                             initiator := some (rootFile "a.txt") }] } := by
  and_intros <;> decide

/-- C4, amended. In every state reachable from startup (the root listing outstanding) by a
run in which the user waits, that is, no choice key ("y", "n", "c", "a", enter) is handled
while an operation is outstanding, at most one listing or copy operation is outstanding. -/
theorem waiting_run_one_outstanding (ord : EvalOrder) (lib : ListLib) (source : String) (events : List Event)
    (s : Session)
    (hrun : Session.run ord lib (Session.start source) events = some s)
    (hwaits : Session.waits ord lib (Session.start source) events = true) :
    s.pending.length ≤ 1 := by
  have hinv := Session.inSync_run ord lib events _ s (Session.inSync_start source) hwaits hrun
  rcases hinv with hnone | ⟨q, hq, _⟩
  · simp [hnone]
  · simp [hq]

/-- The waiting run of scenario A up to the copy: one operation is outstanding. -/
theorem waiting_run_one_outstanding_witness :
    Session.run EvalOrder.callFirst ListLib.idle (Session.start "root")
        [Event.result 0 OS.oneFile, Event.key "y"]
      = some { m := sessionOn "root" [rootFile "a.txt"]
               pending := [{ cmd := Cmd.doCopy "root" "a.txt"
                             initiator := some (rootFile "a.txt") }] } ∧
    Session.waits EvalOrder.callFirst ListLib.idle (Session.start "root")
        [Event.result 0 OS.oneFile, Event.key "y"] = true ∧
    (Session.mk (sessionOn "root" [rootFile "a.txt"])
        [{ cmd := Cmd.doCopy "root" "a.txt"
           initiator := some (rootFile "a.txt") }]).pending.length ≤ 1 :=
  ⟨by decide, by decide,
    waiting_run_one_outstanding EvalOrder.callFirst ListLib.idle "root"
      [Event.result 0 OS.oneFile, Event.key "y"] _ (by decide) (by decide)⟩

/-- Choice application keeps the error and the done flag. -/
theorem processLetter_frame (ord : EvalOrder) (m : model) (letter : String) :
    (processLetter ord m letter).1.err = m.err ∧ (processLetter ord m letter).1.done = m.done ∧
      (processLetter ord m letter).1.source = m.source := by
  rcases processLetter_cases ord m letter with h | ⟨j, s, _, h⟩ | ⟨j, s, _, h⟩ | ⟨j, s, _, h⟩
  · rw [h]; exact ⟨rfl, rfl, rfl⟩
  · rw [h]; exact ⟨rfl, rfl, rfl⟩
  · rw [h]
    exact ⟨(updateForJob_frame ord _).2.1, (updateForJob_frame ord _).2.2.1,
      (updateForJob_frame ord _).2.2.2.1⟩
  · rw [h]; exact ⟨rfl, rfl, rfl⟩

/-- No message clears an error: after `Update` the error is the one reported by the message,
if it is an error event, and the previous one otherwise. -/
theorem Update_err (ord : EvalOrder) (lib : ListLib) (m m1 : model) (msg : Msg) (cmd : Cmd)
    (h : m.Update ord lib msg = Outcome.ret (some m1) cmd) :
    (∃ e, msg = Msg.errMsg e ∧ m1.err = some e) ∨ m1.err = m.err := by
  cases msg with
  | KeyMsg k =>
    right
    rcases Update_key_cases ord lib m k with h0 | ⟨l, c2, h2, _, _⟩ | ⟨letter, h3, _⟩
    · rw [h0] at h; simp at h
    · rw [h2] at h
      simp only [Outcome.ret.injEq, Option.some.injEq] at h
      rw [← h.1]
    · rw [h3] at h
      simp only [Outcome.ret.injEq, Option.some.injEq] at h
      rw [← h.1]; exact (processLetter_frame ord m letter).1
  | WindowSizeMsg w hgt =>
    right
    simp only [model.Update] at h
    obtain ⟨c3, h3, _⟩ := listUpdate_spec lib
      { m with list := m.list.SetSize (w - docStyle.GetFrameSize.1) (hgt - docStyle.GetFrameSize.2) }
      (Msg.WindowSizeMsg w hgt)
    rw [h3] at h
    simp only [Outcome.ret.injEq, Option.some.injEq] at h
    rw [← h.1]
  | errMsg e =>
    left
    rw [Update_errMsg] at h
    simp only [Outcome.ret.injEq, Option.some.injEq] at h
    exact ⟨e, rfl, by rw [← h.1]⟩
  | dirReadMsg entries parent =>
    right
    rw [Update_dirReadMsg] at h
    simp only [Outcome.ret.injEq, Option.some.injEq] at h
    rw [← h.1]; exact (updateForJob_frame ord _).2.1
  | entryCopiedMsg =>
    right
    cases hj : m.job with
    | nil => simp [model.Update, hj] at h
    | cons j rest =>
      rw [Update_entryCopiedMsg ord lib m j rest hj] at h
      simp only [Outcome.ret.injEq, Option.some.injEq] at h
      rw [← h.1]; exact (updateForJob_frame ord _).2.1
  | other tag =>
    right
    simp only [model.Update] at h
    obtain ⟨c3, h3, _⟩ := listUpdate_spec lib m (Msg.other tag)
    rw [h3] at h
    simp only [Outcome.ret.injEq, Option.some.injEq] at h
    rw [← h.1]

/-- An event keeps an error set. -/
theorem Session.step_err (ord : EvalOrder) (lib : ListLib) (s s1 : Session) (e : Event)
    (h : s.step ord lib e = some s1) (herr : s.m.err.isSome = true) : s1.m.err.isSome = true := by
  have key : ∀ (top : Option job) (pending : List Pending) (msg : Msg),
      Session.after top pending (s.m.Update ord lib msg) = some s1 → s1.m.err.isSome = true := by
    intro top pending msg hafter
    cases hout : s.m.Update ord lib msg with
    | nilDeref => simp [hout, Session.after] at hafter
    | ret om cmd =>
      cases om with
      | none => simp [hout, Session.after] at hafter
      | some m1 =>
        simp only [hout, Session.after, Option.some.injEq] at hafter
        subst hafter
        rcases Update_err ord lib s.m m1 msg cmd hout with ⟨e, _, he⟩ | he
        · simp [he]
        · simpa [he] using herr
  cases e with
  | key k => exact key _ _ (Msg.KeyMsg k) h
  | resize w hgt => exact key _ _ (Msg.WindowSizeMsg w hgt) h
  | other tag => exact key _ _ (Msg.other tag) h
  | result i os =>
    simp only [Session.step] at h
    cases hp : s.pending[i]? with
    | none => simp [hp] at h
    | some p =>
      simp only [hp] at h
      cases hr : p.cmd.run os with
      | none => simp [hr] at h
      | some r =>
        simp only [hr] at h
        exact key _ _ _ h

/-- A typed letter among "y", "n", "c", "a" is handed to `processLetter`. -/
theorem Update_letter (ord : EvalOrder) (lib : ListLib) (m : model) (letter : String)
    (h : letter = "y" ∨ letter = "n" ∨ letter = "c" ∨ letter = "a") :
    m.Update ord lib (Msg.KeyMsg letter)
      = Outcome.ret (some (processLetter ord m letter).1) (processLetter ord m letter).2 := by
  have h0 : letter ≠ "ctrl+c" := by
    rcases h with rfl | rfl | rfl | rfl <;> decide
  simp only [model.Update, h0, h, if_true, if_false]

/-- With no selected item, "enter" makes `Update` return the nil model. -/
theorem Update_enter_none (ord : EvalOrder) (lib : ListLib) (m : model) (hsel : m.list.SelectedItem = none) :
    m.Update ord lib (Msg.KeyMsg "enter") = Outcome.ret none Cmd.nil := by
  simp [model.Update, hsel]

/-- The three outcomes of `Update`: it returns a model, or it returns the nil model, which
it does for "enter" without a selected item only, or it dereferences nil, which it does for
a copy-succeeded event on the empty stack only. -/
theorem Update_outcomes (ord : EvalOrder) (lib : ListLib) (m : model) (msg : Msg) :
    (∃ m1 cmd, m.Update ord lib msg = Outcome.ret (some m1) cmd) ∨
    (msg = Msg.KeyMsg "enter" ∧ m.list.SelectedItem = none ∧
      m.Update ord lib msg = Outcome.ret none Cmd.nil) ∨
    (msg = Msg.entryCopiedMsg ∧ m.job = [] ∧ m.Update ord lib msg = Outcome.nilDeref) := by
  cases msg with
  | KeyMsg k =>
    by_cases h0 : k = "ctrl+c"
    · left; exact ⟨m, Cmd.Quit, by simp [model.Update, h0]⟩
    · by_cases h1 : k = "y" ∨ k = "n" ∨ k = "c" ∨ k = "a"
      · left; exact ⟨_, _, Update_letter ord lib m k h1⟩
      · by_cases h2 : k = "enter"
        · subst h2
          cases hsel : m.list.SelectedItem with
          | none => right; left; exact ⟨rfl, rfl, Update_enter_none ord lib m hsel⟩
          | some i => left; exact ⟨_, _, by simp [model.Update, hsel]; exact ⟨rfl, rfl⟩⟩
        · left
          obtain ⟨cmd, hcmd, _⟩ := listUpdate_spec lib m (Msg.KeyMsg k)
          exact ⟨_, cmd, by simp only [model.Update, h0, h1, h2, if_false]; exact hcmd⟩
  | WindowSizeMsg w hgt =>
    left
    obtain ⟨cmd, hcmd, _⟩ := listUpdate_spec lib
      { m with list := m.list.SetSize (w - docStyle.GetFrameSize.1) (hgt - docStyle.GetFrameSize.2) }
      (Msg.WindowSizeMsg w hgt)
    exact ⟨_, cmd, by simp only [model.Update]; exact hcmd⟩
  | errMsg e => left; exact ⟨_, _, Update_errMsg ord lib m e⟩
  | dirReadMsg entries parent => left; exact ⟨_, _, Update_dirReadMsg ord lib m entries parent⟩
  | entryCopiedMsg =>
    cases hj : m.job with
    | nil => right; right; exact ⟨rfl, rfl, by simp [model.Update, hj]⟩
    | cons j rest => left; exact ⟨_, _, Update_entryCopiedMsg ord lib m j rest hj⟩
  | other tag =>
    left
    obtain ⟨cmd, hcmd, _⟩ := listUpdate_spec lib m (Msg.other tag)
    exact ⟨_, cmd, by simp only [model.Update]; exact hcmd⟩

/-- C5, as stated, fails, in either order of evaluation. The root lists `a.txt`; "y" issues
its copy, the copy fails and the error is set; "y" typed again issues the copy of `a.txt`
once more, and "n" typed instead pops `a.txt`: operations are still issued and the stack is
still consulted and modified after the error. -/
theorem letters_still_applied_after_error :
    Session.run EvalOrder.callFirst ListLib.idle (Session.start "root")
        [Event.result 0 OS.oneFile, Event.key "y", Event.result 0 (OS.failing "disk full")]
      = some { m := { sessionOn "root" [rootFile "a.txt"] with err := some "disk full" }
               pending := [] } ∧
    Session.run EvalOrder.copyFirst ListLib.idle (Session.start "root")
        [Event.result 0 OS.oneFile, Event.key "y", Event.result 0 (OS.failing "disk full")]
      = some { m := { sessionOn "root" [rootFile "a.txt"] with err := some "disk full" }
               pending := [] } ∧
    model.Update EvalOrder.callFirst ListLib.idle
        { sessionOn "root" [rootFile "a.txt"] with err := some "disk full" } (Msg.KeyMsg "y")
      = Outcome.ret (some { sessionOn "root" [rootFile "a.txt"] with err := some "disk full" })
          (Cmd.doCopy "root" "a.txt") ∧
    model.Update EvalOrder.copyFirst ListLib.idle
        { sessionOn "root" [rootFile "a.txt"] with err := some "disk full" } (Msg.KeyMsg "y")
      = Outcome.ret (some { sessionOn "root" [rootFile "a.txt"] with err := some "disk full" })
          (Cmd.doCopy "root" "a.txt") ∧
    model.Update EvalOrder.callFirst ListLib.idle
        { sessionOn "root" [rootFile "a.txt"] with err := some "disk full" } (Msg.KeyMsg "n")
      = Outcome.ret (some { sessionOn "root" [] with err := some "disk full" }) Cmd.nil ∧
    model.Update EvalOrder.copyFirst ListLib.idle
        { sessionOn "root" [rootFile "a.txt"] with err := some "disk full" } (Msg.KeyMsg "n")
      = Outcome.ret
          (some { emptied (sessionOn "root" [rootFile "a.txt"]) with err := some "disk full" })
          Cmd.nil ∧
    (sessionOn "root" []).job = [] ∧
    (emptied (sessionOn "root" [rootFile "a.txt"])).job = [] := by
  and_intros <;> decide

/-- C5, amended. Once the error is set the session is failed for good. For every later
message, `Update` returns a model in which the error is still set, the same error unless
the message is itself an error event, whose error replaces it, and whose view is the error
text in place of the prompt; the only exceptions are the two messages for which `Update`
returns no model at all, "enter" without a selected item and a copy-succeeded event on the
empty stack. So after every run of later key presses and events that gets that far, the
error is still set and shown. -/
theorem error_is_permanent (ord : EvalOrder) (lib : ListLib) (s : Session) (e : String)
    (herr : s.m.err = some e) :
    (∀ msg : Msg,
      (∃ m1 cmd, s.m.Update ord lib msg = Outcome.ret (some m1) cmd ∧
        (m1.err = some e ∨ ∃ e1, msg = Msg.errMsg e1 ∧ m1.err = some e1) ∧
        ∃ e2, m1.err = some e2 ∧
          m1.View lib = "Something went wrong, press Q to quit: " ++ e2 ++ "\n") ∨
      (msg = Msg.KeyMsg "enter" ∧ s.m.list.SelectedItem = none ∧
        s.m.Update ord lib msg = Outcome.ret none Cmd.nil) ∨
      (msg = Msg.entryCopiedMsg ∧ s.m.job = [] ∧
        s.m.Update ord lib msg = Outcome.nilDeref)) ∧
    (∀ (events : List Event) (s1 : Session), Session.run ord lib s events = some s1 →
      ∃ e2, s1.m.err = some e2 ∧
        s1.m.View lib = "Something went wrong, press Q to quit: " ++ e2 ++ "\n") := by
  refine ⟨?_, ?_⟩
  · intro msg
    rcases Update_outcomes ord lib s.m msg with ⟨m1, cmd, h⟩ | h | h
    · left
      have hkeep : m1.err = some e ∨ ∃ e1, msg = Msg.errMsg e1 ∧ m1.err = some e1 := by
        rcases Update_err ord lib s.m m1 msg cmd h with ⟨e1, hm, he1⟩ | hsame
        · right; exact ⟨e1, hm, he1⟩
        · left; rw [hsame, herr]
      refine ⟨m1, cmd, h, hkeep, ?_⟩
      rcases hkeep with he | ⟨e1, _, he1⟩
      · exact ⟨e, he, by simp [model.View, he]⟩
      · exact ⟨e1, he1, by simp [model.View, he1]⟩
    · right; left; exact h
    · right; right; exact h
  · intro events s1 hrun
    have hsome : s1.m.err.isSome = true := by
      have herr0 : s.m.err.isSome = true := by simp [herr]
      clear herr
      induction events generalizing s with
      | nil =>
        simp only [Session.run, Option.some.injEq] at hrun
        subst hrun; exact herr0
      | cons ev rest ih =>
        simp only [Session.run] at hrun
        cases hstep : s.step ord lib ev with
        | none => simp [hstep] at hrun
        | some s2 =>
          simp only [hstep] at hrun
          exact ih s2 hrun (Session.step_err ord lib s s2 ev hstep herr0)
    obtain ⟨e2, he2⟩ := Option.isSome_iff_exists.mp hsome
    exact ⟨e2, he2, by simp [model.View, he2]⟩

/-- The failed copy of scenario A: the error "disk full" is set with `a.txt` still on top.
The key "n" returns a session that still has that error, and after it the view is the
error text. -/
theorem error_is_permanent_witness :
    (Session.mk { sessionOn "root" [rootFile "a.txt"] with err := some "disk full" } []
      ).m.err = some "disk full" ∧
    Session.run EvalOrder.copyFirst ListLib.idle
        (Session.mk { sessionOn "root" [rootFile "a.txt"] with err := some "disk full" } [])
        [Event.key "n"]
      = some (Session.mk
          { emptied (sessionOn "root" [rootFile "a.txt"]) with err := some "disk full" } []) ∧
    ∃ e2,
      (Session.mk
          { emptied (sessionOn "root" [rootFile "a.txt"]) with err := some "disk full" } []
        ).m.err = some e2 ∧
      (Session.mk
          { emptied (sessionOn "root" [rootFile "a.txt"]) with err := some "disk full" } []
        ).m.View ListLib.idle
        = "Something went wrong, press Q to quit: " ++ e2 ++ "\n" :=
  ⟨rfl, by decide,
    (error_is_permanent EvalOrder.copyFirst ListLib.idle
      (Session.mk { sessionOn "root" [rootFile "a.txt"] with err := some "disk full" } [])
      "disk full" rfl).2 [Event.key "n"] _ (by decide)⟩

/-- No message changes the done flag. -/
theorem Update_done (ord : EvalOrder) (lib : ListLib) (m m1 : model) (msg : Msg) (cmd : Cmd)
    (h : m.Update ord lib msg = Outcome.ret (some m1) cmd) : m1.done = m.done := by
  cases msg with
  | KeyMsg k =>
    rcases Update_key_cases ord lib m k with h0 | ⟨l, c2, h2, _, _⟩ | ⟨letter, h3, _⟩
    · rw [h0] at h; simp at h
    · rw [h2] at h
      simp only [Outcome.ret.injEq, Option.some.injEq] at h
      rw [← h.1]
    · rw [h3] at h
      simp only [Outcome.ret.injEq, Option.some.injEq] at h
      rw [← h.1]; exact (processLetter_frame ord m letter).2.1
  | WindowSizeMsg w hgt =>
    simp only [model.Update] at h
    obtain ⟨c3, h3, _⟩ := listUpdate_spec lib
      { m with list := m.list.SetSize (w - docStyle.GetFrameSize.1) (hgt - docStyle.GetFrameSize.2) }
      (Msg.WindowSizeMsg w hgt)
    rw [h3] at h
    simp only [Outcome.ret.injEq, Option.some.injEq] at h
    rw [← h.1]
  | errMsg e =>
    rw [Update_errMsg] at h
    simp only [Outcome.ret.injEq, Option.some.injEq] at h
    rw [← h.1]
  | dirReadMsg entries parent =>
    rw [Update_dirReadMsg] at h
    simp only [Outcome.ret.injEq, Option.some.injEq] at h
    rw [← h.1]; exact (updateForJob_frame ord _).2.2.1
  | entryCopiedMsg =>
    cases hj : m.job with
    | nil => simp [model.Update, hj] at h
    | cons j rest =>
      rw [Update_entryCopiedMsg ord lib m j rest hj] at h
      simp only [Outcome.ret.injEq, Option.some.injEq] at h
      rw [← h.1]; exact (updateForJob_frame ord _).2.2.1
  | other tag =>
    simp only [model.Update] at h
    obtain ⟨c3, h3, _⟩ := listUpdate_spec lib m (Msg.other tag)
    rw [h3] at h
    simp only [Outcome.ret.injEq, Option.some.injEq] at h
    rw [← h.1]

/-- C6, the code at the failing inputs, in either order of evaluation. The root lists
`a.txt`. Answering "n" empties the stack, and so does "y" followed by the copy's success;
in both sessions the done flag is still false and the view is the rendering of the list,
not the completion message. The same holds when "a" on the only job, an empty directory
`d`, lists nothing. -/
theorem done_not_set_on_empty_stack :
    Session.run EvalOrder.callFirst ListLib.idle (Session.start "root")
        [Event.result 0 OS.oneFile, Event.key "n"]
      = some { m := sessionOn "root" [], pending := [] } ∧
    Session.run EvalOrder.callFirst ListLib.idle (Session.start "root")
        [Event.result 0 OS.oneFile, Event.key "y", Event.result 0 OS.oneFile]
      = some { m := sessionOn "root" [], pending := [] } ∧
    Session.run EvalOrder.callFirst ListLib.idle
        { m := sessionOn "root" [job.mk (dirEntry "d") ""], pending := [] }
        [Event.key "a", Event.result 0 (OS.fine "/cwd" [])]
      = some { m := sessionOn "root" [], pending := [] } ∧
    Session.run EvalOrder.copyFirst ListLib.idle (Session.start "root")
        [Event.result 0 OS.oneFile, Event.key "n"]
      = some { m := emptied (sessionOn "root" [rootFile "a.txt"]), pending := [] } ∧
    Session.run EvalOrder.copyFirst ListLib.idle (Session.start "root")
        [Event.result 0 OS.oneFile, Event.key "y", Event.result 0 OS.oneFile]
      = some { m := emptied (sessionOn "root" [rootFile "a.txt"]), pending := [] } ∧
    Session.run EvalOrder.copyFirst ListLib.idle
        { m := sessionOn "root" [job.mk (dirEntry "d") ""], pending := [] }
        [Event.key "a", Event.result 0 (OS.fine "/cwd" [])]
      = some { m := emptied (sessionOn "root" [job.mk (dirEntry "d") ""]), pending := [] } ∧
    (sessionOn "root" []).job = [] ∧
    (sessionOn "root" []).done = false ∧
    (sessionOn "root" []).View ListLib.idle = "" ∧
    (sessionOn "root" []).View ListLib.idle ≠ "All done, press Q to quit!" ∧
    (emptied (sessionOn "root" [rootFile "a.txt"])).job = [] ∧
    (emptied (sessionOn "root" [rootFile "a.txt"])).done = false ∧
    (emptied (sessionOn "root" [rootFile "a.txt"])).View ListLib.idle
      ≠ "All done, press Q to quit!" ∧
    (emptied (sessionOn "root" [job.mk (dirEntry "d") ""])).job = [] ∧
    (emptied (sessionOn "root" [job.mk (dirEntry "d") ""])).done = false ∧
    (emptied (sessionOn "root" [job.mk (dirEntry "d") ""])).View ListLib.idle
      ≠ "All done, press Q to quit!" := by
  and_intros <;> decide

/-- Prompt derivation for a session that is not done. With a directory on top the derived
items are No, Completely, Ask with ids "n", "c", "a" in that order and the title is the
folder question followed by the job's relative path `join(parent, name)`; with a file on
top the items are No, Yes with ids "n", "y" and the title is the file question followed by
the relative path. With no job the title is empty; the items are empty when the call of
`SetItems(nil)` comes first and are the ones the list had when the copy comes first. -/
theorem prompt_derivation (ord : EvalOrder) (m : model) (hdone : m.done = false) :
    (∀ j s, m.job = j :: s → j.entry.IsDir = true →
      (m.updateForJob ord).1.list.items
        = [item.mk "n" "(N)o", item.mk "c" "(C)ompletetly", item.mk "a" "(A)sk"] ∧
      (m.updateForJob ord).1.list.items.map item.id = ["n", "c", "a"] ∧
      (m.updateForJob ord).1.list.Title
        = "Do you want to copy folder " ++ path.Join [j.parent, j.entry.Name]) ∧
    (∀ j s, m.job = j :: s → j.entry.IsDir = false →
      (m.updateForJob ord).1.list.items = [item.mk "n" "(N)o", item.mk "y" "(Y)es"] ∧
      (m.updateForJob ord).1.list.items.map item.id = ["n", "y"] ∧
      (m.updateForJob ord).1.list.Title
        = "Do you want to copy file " ++ path.Join [j.parent, j.entry.Name]) ∧
    (m.job = [] →
      (m.updateForJob ord).1.list.Title = "" ∧
      (ord = EvalOrder.callFirst → (m.updateForJob ord).1.list.items = []) ∧
      (ord = EvalOrder.copyFirst → (m.updateForJob ord).1.list.items = m.list.items)) := by
  refine ⟨?_, ?_, ?_⟩
  · intro j s hj hdir
    simp [model.updateForJob, hj, hdone, hdir, ListModel.SetItems, job.Name]
  · intro j s hj hdir
    simp [model.updateForJob, hj, hdone, hdir, ListModel.SetItems, job.Name]
  · intro hj
    cases ord <;> simp [model.updateForJob, hj, model.returnSetItemsNil, ListModel.SetItems]

/-- Scenario B, the prompt for `d/x.txt`: a file, so No and Yes. -/
theorem prompt_derivation_witness :
    (sessionOn "root" [job.mk (fileEntry "x.txt") "d"]).done = false ∧
    ((sessionOn "root" [job.mk (fileEntry "x.txt") "d"]).updateForJob EvalOrder.copyFirst
      ).1.list.items.map item.id = ["n", "y"] ∧
    ((sessionOn "root" [job.mk (fileEntry "x.txt") "d"]).updateForJob EvalOrder.copyFirst
      ).1.list.Title = "Do you want to copy file d/x.txt" :=
  ⟨rfl,
    (((prompt_derivation EvalOrder.copyFirst (sessionOn "root" [job.mk (fileEntry "x.txt") "d"])
      rfl).2.1 (job.mk (fileEntry "x.txt") "d") [] rfl rfl).2.1),
    (((prompt_derivation EvalOrder.copyFirst (sessionOn "root" [job.mk (fileEntry "x.txt") "d"])
      rfl).2.1 (job.mk (fileEntry "x.txt") "d") [] rfl rfl).2.2)⟩

/-- C7, the code at the failing input. The file `a.txt` is shown with No and Yes and is the
only job; once it is gone (as after "n"), prompt derivation finds no job. The title it
returns is empty in either order of evaluation. The items it returns are empty when the
call of `SetItems(nil)` comes before the copy of the model, and are still No and Yes when
the copy comes first: the choice list is then not empty. -/
theorem no_job_prompt_keeps_items :
    ({ sessionOn "root" [rootFile "a.txt"] with job := [] } : model).job = [] ∧
    ({ sessionOn "root" [rootFile "a.txt"] with job := [] } : model).done = false ∧
    ({ sessionOn "root" [rootFile "a.txt"] with job := [] } : model).list.items
      = [item.mk "n" "(N)o", item.mk "y" "(Y)es"] ∧
    (model.updateForJob EvalOrder.copyFirst
        { sessionOn "root" [rootFile "a.txt"] with job := [] }).1.list.Title = "" ∧
    (model.updateForJob EvalOrder.copyFirst
        { sessionOn "root" [rootFile "a.txt"] with job := [] }).1.list.items
      = [item.mk "n" "(N)o", item.mk "y" "(Y)es"] ∧
    (model.updateForJob EvalOrder.callFirst
        { sessionOn "root" [rootFile "a.txt"] with job := [] }).1.list.Title = "" ∧
    (model.updateForJob EvalOrder.callFirst
        { sessionOn "root" [rootFile "a.txt"] with job := [] }).1.list.items = [] ∧
    (processLetter EvalOrder.copyFirst (sessionOn "root" [rootFile "a.txt"]) "n").1.job = [] ∧
    (processLetter EvalOrder.copyFirst (sessionOn "root" [rootFile "a.txt"]) "n").1.list.items
      = [item.mk "n" "(N)o", item.mk "y" "(Y)es"] := by
  and_intros <;> decide

/-- The letter "n" removes the top job, if any, and returns no command. -/
theorem processLetter_no (ord : EvalOrder) (m : model) :
    (processLetter ord m "n").1.job = m.job.tail ∧ (processLetter ord m "n").2 = Cmd.nil := by
  cases hj : m.job with
  | nil => simp [processLetter, hj]
  | cons j s =>
    have h : processLetter ord m "n" = ((({ m with job := s }).updateForJob ord).1,
        (({ m with job := s }).updateForJob ord).2) := by
      simp [processLetter, hj]
    rw [h]
    exact ⟨(updateForJob_frame ord _).1, (updateForJob_frame ord _).2.2.2.2⟩

/-- The letter "n" applied `i` times removes the `i` topmost jobs and returns no command. -/
theorem processLetters_no (ord : EvalOrder) (i : Nat) (m : model) :
    (processLetters ord m (List.replicate i "n")).1.job = m.job.drop i ∧
      (processLetters ord m (List.replicate i "n")).2 = List.replicate i Cmd.nil := by
  induction i generalizing m with
  | zero => exact ⟨rfl, rfl⟩
  | succ n ih =>
    obtain ⟨h1, h2⟩ := ih (processLetter ord m "n").1
    simp only [List.replicate_succ, processLetters]
    refine ⟨?_, ?_⟩
    · rw [h1, (processLetter_no ord m).1]
      cases m.job <;> simp
    · rw [h2, (processLetter_no ord m).2]

/-- C8 (LIFO sibling order). Handling a listing result with entries `e_0 .. e_(N-1)` on a
stack `s` returns the model whose stack holds their jobs in reverse listing order on top of
`s`. For each `k < N`, after `N - 1 - k` applications of "n" the job of `e_k` is on top,
with the jobs of the entries listed before it beneath, in reverse order, and `s` beneath
those; after `N` applications the stack is `s` again. So the last-listed entry is on top
first and the first-listed entry comes last. -/
theorem lifo_sibling_order (ord : EvalOrder) (lib : ListLib) (m : model) (entries : List DirEntry)
    (parent : String) :
    model.Update ord lib m (Msg.dirReadMsg entries parent)
      = Outcome.ret
          (some (({ m with job := (entries.map (fun e => job.mk e parent)).reverse ++ m.job }
            ).updateForJob ord).1) Cmd.nil ∧
    ((({ m with job := (entries.map (fun e => job.mk e parent)).reverse ++ m.job }
        ).updateForJob ord).1).job
      = (entries.map (fun e => job.mk e parent)).reverse ++ m.job ∧
    (∀ (k : Nat) (hk : k < entries.length),
      (processLetters ord
          ((({ m with job := (entries.map (fun e => job.mk e parent)).reverse ++ m.job }
            ).updateForJob ord).1)
          (List.replicate (entries.length - 1 - k) "n")).1.job
        = job.mk (entries.get ⟨k, hk⟩) parent
            :: (((entries.take k).map (fun e => job.mk e parent)).reverse ++ m.job)) ∧
    (processLetters ord
        ((({ m with job := (entries.map (fun e => job.mk e parent)).reverse ++ m.job }
          ).updateForJob ord).1)
        (List.replicate entries.length "n")).1.job
      = m.job := by
  refine ⟨Update_dirReadMsg ord lib m entries parent, (updateForJob_frame ord _).1, ?_, ?_⟩
  · intro k hk
    rw [(processLetters_no ord _ _).1, (updateForJob_frame ord _).1]
    have hsplit : entries = entries.take k ++ entries.get ⟨k, hk⟩ :: entries.drop (k + 1) := by
      simp
    have hrev : (entries.map (fun e => job.mk e parent)).reverse
        = ((entries.drop (k + 1)).map (fun e => job.mk e parent)).reverse
            ++ (job.mk (entries.get ⟨k, hk⟩) parent
              :: ((entries.take k).map (fun e => job.mk e parent)).reverse) := by
      have hmap := congrArg (List.map (fun e => job.mk e parent)) hsplit
      simp only [List.map_append, List.map_cons] at hmap
      rw [hmap]
      simp only [List.reverse_append, List.reverse_cons, List.append_assoc,
        List.singleton_append]
    have hlen : ((entries.drop (k + 1)).map (fun e => job.mk e parent)).reverse.length
        = entries.length - 1 - k := by
      simp; omega
    rw [hrev, List.append_assoc, List.drop_left' hlen]
    rfl
  · rw [(processLetters_no ord _ _).1, (updateForJob_frame ord _).1]
    have hlen : (entries.map (fun e => job.mk e parent)).reverse.length = entries.length := by
      simp
    rw [List.drop_left' hlen]

/-- Scenario C: the root lists the files `a`, `b` in that order; `b` is on top at once and
`a` after one "n". -/
theorem lifo_sibling_order_witness :
    1 < [fileEntry "a", fileEntry "b"].length ∧
    model.Update EvalOrder.callFirst ListLib.idle (DoIt.model "root")
        (Msg.dirReadMsg [fileEntry "a", fileEntry "b"] "")
      = Outcome.ret (some (sessionOn "root" [rootFile "b", rootFile "a"])) Cmd.nil ∧
    model.Update EvalOrder.copyFirst ListLib.idle (DoIt.model "root")
        (Msg.dirReadMsg [fileEntry "a", fileEntry "b"] "")
      = Outcome.ret (some (sessionOn "root" [rootFile "b", rootFile "a"])) Cmd.nil ∧
    (sessionOn "root" [rootFile "b", rootFile "a"]).list.Title = "Do you want to copy file b" ∧
    (processLetters EvalOrder.callFirst (sessionOn "root" [rootFile "b", rootFile "a"])
        (List.replicate 0 "n")).1.job = [rootFile "b", rootFile "a"] ∧
    (processLetters EvalOrder.callFirst (sessionOn "root" [rootFile "b", rootFile "a"])
        (List.replicate 1 "n")).1.job = [rootFile "a"] ∧
    (processLetters EvalOrder.callFirst (sessionOn "root" [rootFile "b", rootFile "a"])
        (List.replicate 2 "n")).1.job = [] ∧
    (processLetters EvalOrder.copyFirst (sessionOn "root" [rootFile "b", rootFile "a"])
        (List.replicate 1 "n")).1.job = [rootFile "a"] ∧
    (processLetters EvalOrder.copyFirst (sessionOn "root" [rootFile "b", rootFile "a"])
        (List.replicate 2 "n")).1.job = [] :=
  ⟨by decide,
    (lifo_sibling_order EvalOrder.callFirst ListLib.idle (DoIt.model "root")
      [fileEntry "a", fileEntry "b"] "").1,
    (lifo_sibling_order EvalOrder.copyFirst ListLib.idle (DoIt.model "root")
      [fileEntry "a", fileEntry "b"] "").1,
    by decide,
    (lifo_sibling_order EvalOrder.callFirst ListLib.idle (DoIt.model "root")
      [fileEntry "a", fileEntry "b"] "").2.2.1 1 (by decide),
    (lifo_sibling_order EvalOrder.callFirst ListLib.idle (DoIt.model "root")
      [fileEntry "a", fileEntry "b"] "").2.2.1 0 (by decide),
    (lifo_sibling_order EvalOrder.callFirst ListLib.idle (DoIt.model "root")
      [fileEntry "a", fileEntry "b"] "").2.2.2,
    (lifo_sibling_order EvalOrder.copyFirst ListLib.idle (DoIt.model "root")
      [fileEntry "a", fileEntry "b"] "").2.2.1 0 (by decide),
    (lifo_sibling_order EvalOrder.copyFirst ListLib.idle (DoIt.model "root")
      [fileEntry "a", fileEntry "b"] "").2.2.2⟩

/-- C9 (All-No drains the stack without copying). Each application of "n" removes exactly
the top job and leaves the jobs beneath it as they were; applied `i` times from any stack
it removes the `i` topmost jobs and every command returned on the way is nil (no copy, no
listing); applied as many times as the stack has jobs it ends with the empty stack. -/
theorem all_no_drains (ord : EvalOrder) (m : model) :
    (processLetter ord m "n").1.job = m.job.tail ∧
    (processLetter ord m "n").2 = Cmd.nil ∧
    (∀ i : Nat,
      (processLetters ord m (List.replicate i "n")).1.job = m.job.drop i ∧
      (processLetters ord m (List.replicate i "n")).2 = List.replicate i Cmd.nil) ∧
    (processLetters ord m (List.replicate m.job.length "n")).1.job = [] ∧
    ∀ cmd ∈ (processLetters ord m (List.replicate m.job.length "n")).2, cmd.isOp = false := by
  refine ⟨(processLetter_no ord m).1, (processLetter_no ord m).2,
    fun i => processLetters_no ord i m, ?_, ?_⟩
  · rw [(processLetters_no ord _ m).1]
    simp
  · intro cmd hcmd
    rw [(processLetters_no ord _ m).2] at hcmd
    rw [List.eq_of_mem_replicate hcmd]
    rfl

/-- A directory `d` on top of a file `a.txt`: "n" twice removes `d`, then `a.txt`, and both
commands are nil, in either order of evaluation. -/
theorem all_no_drains_witness :
    (processLetter EvalOrder.callFirst
        (sessionOn "root" [job.mk (dirEntry "d") "", rootFile "a.txt"]) "n").1.job
      = [rootFile "a.txt"] ∧
    (processLetters EvalOrder.callFirst
        (sessionOn "root" [job.mk (dirEntry "d") "", rootFile "a.txt"])
        (List.replicate 2 "n")).1.job = [] ∧
    (processLetters EvalOrder.callFirst
        (sessionOn "root" [job.mk (dirEntry "d") "", rootFile "a.txt"])
        (List.replicate 2 "n")).2 = [Cmd.nil, Cmd.nil] ∧
    (processLetters EvalOrder.copyFirst
        (sessionOn "root" [job.mk (dirEntry "d") "", rootFile "a.txt"])
        (List.replicate 2 "n")).1.job = [] ∧
    (processLetters EvalOrder.copyFirst
        (sessionOn "root" [job.mk (dirEntry "d") "", rootFile "a.txt"])
        (List.replicate 2 "n")).2 = [Cmd.nil, Cmd.nil] :=
  ⟨(all_no_drains EvalOrder.callFirst
      (sessionOn "root" [job.mk (dirEntry "d") "", rootFile "a.txt"])).1,
    (all_no_drains EvalOrder.callFirst
      (sessionOn "root" [job.mk (dirEntry "d") "", rootFile "a.txt"])).2.2.2.1,
    ((all_no_drains EvalOrder.callFirst
      (sessionOn "root" [job.mk (dirEntry "d") "", rootFile "a.txt"])).2.2.1 2).2,
    (all_no_drains EvalOrder.copyFirst
      (sessionOn "root" [job.mk (dirEntry "d") "", rootFile "a.txt"])).2.2.2.1,
    ((all_no_drains EvalOrder.copyFirst
      (sessionOn "root" [job.mk (dirEntry "d") "", rootFile "a.txt"])).2.2.1 2).2⟩

/-- C10 (Invalid choices are no-ops). With no job on the stack, or "y" on a directory, or
"c" or "a" on a file, or a letter other than "y", "n", "c", "a", `processLetter` returns
the model as it was (stack, error, done flag and list alike) and the nil command. -/
theorem invalid_choice_is_noop (ord : EvalOrder) (m : model) (letter : String)
    (h : m.job = [] ∨
      (letter = "y" ∧ ∃ j s, m.job = j :: s ∧ j.entry.IsDir = true) ∨
      ((letter = "c" ∨ letter = "a") ∧ ∃ j s, m.job = j :: s ∧ j.entry.IsDir = false) ∨
      (letter ≠ "y" ∧ letter ≠ "n" ∧ letter ≠ "c" ∧ letter ≠ "a")) :
    processLetter ord m letter = (m, Cmd.nil) := by
  rcases h with h | ⟨rfl, j, s, hj, hdir⟩ | ⟨hl, j, s, hj, hdir⟩ | ⟨h1, h2, h3, h4⟩
  · unfold processLetter
    simp only [h]
    split_ifs <;> rfl
  · simp [processLetter, hj, hdir]
  · rcases hl with rfl | rfl <;> simp [processLetter, hj, hdir]
  · simp [processLetter, h1, h2, h3, h4]

/-- The four kinds of invalid choice on concrete sessions: "n" on the empty stack, "y" on
the directory `d`, "a" on the file `a.txt`, and the letter "x". -/
theorem invalid_choice_is_noop_witness :
    processLetter EvalOrder.callFirst (sessionOn "root" []) "n"
      = (sessionOn "root" [], Cmd.nil) ∧
    processLetter EvalOrder.copyFirst (sessionOn "root" []) "n"
      = (sessionOn "root" [], Cmd.nil) ∧
    processLetter EvalOrder.callFirst (sessionOn "root" [job.mk (dirEntry "d") ""]) "y"
      = (sessionOn "root" [job.mk (dirEntry "d") ""], Cmd.nil) ∧
    processLetter EvalOrder.copyFirst (sessionOn "root" [rootFile "a.txt"]) "a"
      = (sessionOn "root" [rootFile "a.txt"], Cmd.nil) ∧
    processLetter EvalOrder.callFirst (sessionOn "root" [rootFile "a.txt"]) "x"
      = (sessionOn "root" [rootFile "a.txt"], Cmd.nil) :=
  ⟨invalid_choice_is_noop EvalOrder.callFirst _ "n" (Or.inl rfl),
    invalid_choice_is_noop EvalOrder.copyFirst _ "n" (Or.inl rfl),
    invalid_choice_is_noop EvalOrder.callFirst _ "y"
      (Or.inr (Or.inl ⟨rfl, job.mk (dirEntry "d") "", [], rfl, rfl⟩)),
    invalid_choice_is_noop EvalOrder.copyFirst _ "a"
      (Or.inr (Or.inr (Or.inl ⟨Or.inr rfl, rootFile "a.txt", [], rfl, rfl⟩))),
    invalid_choice_is_noop EvalOrder.callFirst _ "x"
      (Or.inr (Or.inr (Or.inr ⟨by decide, by decide, by decide, by decide⟩)))⟩

/-- C11 (Failed listing after Ask). Handling an error event returns the model with the
error set and every other field as it was, and no command. So on a stack `d :: s` with `d`
a directory, "a" followed by the failure of the listing it issued (the closure reports the
error of `ReadDir`) leaves the stack `s`: the jobs beneath `d` as they were, `d` gone. -/
theorem failed_listing_after_ask (ord : EvalOrder) (lib : ListLib) (m : model) (d : job) (s : List job)
    (e : String) (htop : m.job = d :: s) (hdir : d.entry.IsDir = true) :
    (∀ m0 : model,
      model.Update ord lib m0 (Msg.errMsg e) = Outcome.ret (some { m0 with err := some e }) Cmd.nil) ∧
    processLetter ord m "a" = ({ m with job := s }, Cmd.readDir m.source d.Name) ∧
    (∀ os : OS, os.ReadDir (path.Join [m.source, d.Name]) = .error e →
      (Cmd.run os (processLetter ord m "a").2).map Prod.snd = some (Msg.errMsg e)) ∧
    model.Update ord lib (processLetter ord m "a").1 (Msg.errMsg e)
      = Outcome.ret (some { m with job := s, err := some e }) Cmd.nil := by
  have ha : processLetter ord m "a" = ({ m with job := s }, Cmd.readDir m.source d.Name) := by
    simp [processLetter, htop, hdir]
  refine ⟨fun m0 => rfl, ha, ?_, ?_⟩
  · intro os hfail
    rw [ha]
    simp [Cmd.run, readDir.run, hfail]
  · rw [ha]
    rfl

/-- Scenario D: the directory `d` sits on the file `a.txt`; "a" on `d`, then the listing
fails with "permission denied": the stack is `a.txt` alone and the error is set. -/
theorem failed_listing_after_ask_witness :
    (sessionOn "root" [job.mk (dirEntry "d") "", rootFile "a.txt"]).job
      = [job.mk (dirEntry "d") "", rootFile "a.txt"] ∧
    (job.mk (dirEntry "d") "").entry.IsDir = true ∧
    model.Update EvalOrder.callFirst ListLib.idle
        (processLetter EvalOrder.callFirst
          (sessionOn "root" [job.mk (dirEntry "d") "", rootFile "a.txt"]) "a").1
        (Msg.errMsg "permission denied")
      = Outcome.ret
          (some { sessionOn "root" [job.mk (dirEntry "d") "", rootFile "a.txt"] with
                    job := [rootFile "a.txt"], err := some "permission denied" }) Cmd.nil ∧
    model.Update EvalOrder.copyFirst ListLib.idle
        (processLetter EvalOrder.copyFirst
          (sessionOn "root" [job.mk (dirEntry "d") "", rootFile "a.txt"]) "a").1
        (Msg.errMsg "permission denied")
      = Outcome.ret
          (some { sessionOn "root" [job.mk (dirEntry "d") "", rootFile "a.txt"] with
                    job := [rootFile "a.txt"], err := some "permission denied" }) Cmd.nil :=
  ⟨rfl, rfl,
    (failed_listing_after_ask EvalOrder.callFirst ListLib.idle
      (sessionOn "root" [job.mk (dirEntry "d") "", rootFile "a.txt"])
      (job.mk (dirEntry "d") "") [rootFile "a.txt"] "permission denied" rfl rfl).2.2.2,
    (failed_listing_after_ask EvalOrder.copyFirst ListLib.idle
      (sessionOn "root" [job.mk (dirEntry "d") "", rootFile "a.txt"])
      (job.mk (dirEntry "d") "") [rootFile "a.txt"] "permission denied" rfl rfl).2.2.2⟩

/-- C12 (Prompt derivation is idempotent). Deriving the prompt from a model that already
carries the derived prompt returns the same model (title and items alike) and the same
command; and derivation changes neither the stack nor the error nor the done flag. -/
theorem prompt_derivation_idempotent (ord : EvalOrder) (m : model) :
    ((m.updateForJob ord).1.updateForJob ord) = (m.updateForJob ord) ∧
    ((m.updateForJob ord).1.updateForJob ord).1.list.Title
      = (m.updateForJob ord).1.list.Title ∧
    ((m.updateForJob ord).1.updateForJob ord).1.list.items
      = (m.updateForJob ord).1.list.items ∧
    (m.updateForJob ord).1.job = m.job ∧
    (m.updateForJob ord).1.err = m.err ∧
    (m.updateForJob ord).1.done = m.done := by
  have h : ((m.updateForJob ord).1.updateForJob ord) = (m.updateForJob ord) := by
    unfold model.updateForJob
    cases hj : m.job with
    | nil => cases ord <;> simp [model.returnSetItemsNil, ListModel.SetItems]
    | cons j s =>
      by_cases hdone : m.done = true
      · cases ord <;> simp [hdone, model.returnSetItemsNil, ListModel.SetItems]
      · by_cases hdir : j.entry.IsDir = true <;> simp [hdone, hdir, ListModel.SetItems]
  refine ⟨h, by rw [h], by rw [h], (updateForJob_frame ord m).1, (updateForJob_frame ord m).2.1,
    (updateForJob_frame ord m).2.2.1⟩

/-- C13 (Error is shown in place of the prompt). With the error set, the view is the fixed
text followed by the error message and a newline, whatever the stack, the done flag, the
list and the widget are: the list is not rendered and the completion message is not shown.
With no error and the done flag unset, the view is the rendering of the list. -/
theorem view_shows_error (lib : ListLib) (m : model) :
    (∀ e : String, m.err = some e →
      m.View lib = "Something went wrong, press Q to quit: " ++ e ++ "\n" ∧
      (∀ (lib1 : ListLib) (l : ListModel) (stack : List job) (done : Bool),
        model.View lib1 { m with list := l, job := stack, done := done } = m.View lib)) ∧
    (m.err = none → m.done = false → m.View lib = lib.Render (lib.View m.list)) := by
  refine ⟨?_, ?_⟩
  · intro e he
    refine ⟨by simp [model.View, he], ?_⟩
    intro lib1 l stack done
    simp [model.View, he]
  · intro he hdone
    simp [model.View, he, hdone]

/-- A failed session that is also marked done, and a running session: the first shows the
error, the second the list (the idle widget renders the title). -/
theorem view_shows_error_witness :
    ({ sessionOn "root" [rootFile "a.txt"] with err := some "disk full", done := true }
        ).View ListLib.idle
      = "Something went wrong, press Q to quit: disk full\n" ∧
    (sessionOn "root" [rootFile "a.txt"]).View ListLib.idle
      = "Do you want to copy file a.txt" :=
  ⟨((view_shows_error ListLib.idle
      { sessionOn "root" [rootFile "a.txt"] with err := some "disk full", done := true }).1
      "disk full" rfl).1,
    (view_shows_error ListLib.idle (sessionOn "root" [rootFile "a.txt"])).2 rfl rfl⟩

/-- C14, as stated, fails, in either order of evaluation. The root lists the file `a.txt`
and the directory `d`, in that order, so `d` is on top of `a.txt`. After "a" the listing of
`d` is outstanding and the list still shows the choices of `d` (ids "n", "c", "a"); the
letter "y", which is not among them, is not ignored: it is judged against `a.txt`, now on
top, and issues the copy of `a.txt`. -/
theorem stale_prompt_letter_is_applied :
    Session.run EvalOrder.callFirst ListLib.idle (Session.start "root")
        [Event.result 0 (OS.fine "/cwd" [fileEntry "a.txt", dirEntry "d"]), Event.key "a"]
      = some { m := { sessionOn "root" [job.mk (dirEntry "d") "", rootFile "a.txt"] with
                        job := [rootFile "a.txt"] }
               pending := [{ cmd := Cmd.readDir "root" "d"
                             initiator := some (job.mk (dirEntry "d") "") }] } ∧
    Session.run EvalOrder.copyFirst ListLib.idle (Session.start "root")
        [Event.result 0 (OS.fine "/cwd" [fileEntry "a.txt", dirEntry "d"]), Event.key "a"]
      = some { m := { sessionOn "root" [job.mk (dirEntry "d") "", rootFile "a.txt"] with
                        job := [rootFile "a.txt"] }
               pending := [{ cmd := Cmd.readDir "root" "d"
                             initiator := some (job.mk (dirEntry "d") "") }] } ∧
    ({ sessionOn "root" [job.mk (dirEntry "d") "", rootFile "a.txt"] with
        job := [rootFile "a.txt"] } : model).list.items.map item.id = ["n", "c", "a"] ∧
    model.Update EvalOrder.callFirst ListLib.idle
        { sessionOn "root" [job.mk (dirEntry "d") "", rootFile "a.txt"] with
            job := [rootFile "a.txt"] }
        (Msg.KeyMsg "y")
      = Outcome.ret
          (some { sessionOn "root" [job.mk (dirEntry "d") "", rootFile "a.txt"] with
                    job := [rootFile "a.txt"] })
          (Cmd.doCopy "root" "a.txt") ∧
    model.Update EvalOrder.copyFirst ListLib.idle
        { sessionOn "root" [job.mk (dirEntry "d") "", rootFile "a.txt"] with
            job := [rootFile "a.txt"] }
        (Msg.KeyMsg "y")
      = Outcome.ret
          (some { sessionOn "root" [job.mk (dirEntry "d") "", rootFile "a.txt"] with
                    job := [rootFile "a.txt"] })
          (Cmd.doCopy "root" "a.txt") := by
  and_intros <;> decide

/-- C14, amended. A key is judged against the job on top of the stack. In a session that
is not done and whose displayed choices are the ones derived from the job on top (as they
are while a copy is outstanding, the copy's job being still on top), a typed key other than
enter that is not the id of a displayed choice changes neither the stack nor the error nor
the done flag and issues no listing and no copy: `Update` returns the model with at most
the list changed and a command that is no operation. For the letters "y", "n", "c", "a" it
returns the model unchanged and the nil command, as `processLetter` does; any other key is
handed to the list widget. -/
theorem undisplayed_letter_ignored (ord : EvalOrder) (lib : ListLib) (m : model)
    (letter : String)
    (hdone : m.done = false)
    (hshown : m.list.items = (m.updateForJob ord).1.list.items)
    (hnot : letter ∉ m.list.items.map item.id)
    (henter : letter ≠ "enter") :
    processLetter ord m letter = (m, Cmd.nil) ∧
    ((letter = "y" ∨ letter = "n" ∨ letter = "c" ∨ letter = "a") →
      m.Update ord lib (Msg.KeyMsg letter) = Outcome.ret (some m) Cmd.nil) ∧
    (∃ l cmd, m.Update ord lib (Msg.KeyMsg letter)
        = Outcome.ret (some { m with list := l }) cmd ∧ cmd.isOp = false) := by
  have hp : processLetter ord m letter = (m, Cmd.nil) := by
    rw [hshown] at hnot
    cases hj : m.job with
    | nil =>
      unfold processLetter
      simp only [hj]
      split_ifs <;> rfl
    | cons j s =>
      by_cases hdir : j.entry.IsDir = true
      · simp [model.updateForJob, hj, hdone, hdir, ListModel.SetItems] at hnot
        by_cases hy : letter = "y"
        · subst hy; simp [processLetter, hj, hdir]
        · simp [processLetter, hy, hnot.1, hnot.2.1, hnot.2.2]
      · simp [model.updateForJob, hj, hdone, hdir, ListModel.SetItems] at hnot
        by_cases hc : letter = "c"
        · subst hc; simp [processLetter, hj, hdir]
        · by_cases ha : letter = "a"
          · subst ha; simp [processLetter, hj, hdir]
          · simp [processLetter, hc, ha, hnot.1, hnot.2]
  have hfour : (letter = "y" ∨ letter = "n" ∨ letter = "c" ∨ letter = "a") →
      m.Update ord lib (Msg.KeyMsg letter) = Outcome.ret (some m) Cmd.nil := by
    intro hl
    rw [Update_letter ord lib m letter hl, hp]
  refine ⟨hp, hfour, ?_⟩
  by_cases hl : letter = "y" ∨ letter = "n" ∨ letter = "c" ∨ letter = "a"
  · exact ⟨m.list, Cmd.nil, hfour hl, rfl⟩
  · by_cases h0 : letter = "ctrl+c"
    · exact ⟨m.list, Cmd.Quit, by simp [model.Update, h0], rfl⟩
    · obtain ⟨cmd, hcmd, hop⟩ := listUpdate_spec lib m (Msg.KeyMsg letter)
      refine ⟨(lib.Update m.list (Msg.KeyMsg letter)).1, cmd, ?_, hop⟩
      simp only [model.Update, h0, hl, henter, if_false]
      exact hcmd

/-- The copy of `a.txt` is outstanding and `a.txt` is still on top, shown with No and Yes:
the letter "c" is returned unanswered, and the key "x" goes to the list widget, which here
ignores it. -/
theorem undisplayed_letter_ignored_witness :
    (sessionOn "root" [rootFile "a.txt"]).done = false ∧
    "c" ∉ (sessionOn "root" [rootFile "a.txt"]).list.items.map item.id ∧
    model.Update EvalOrder.copyFirst ListLib.idle (sessionOn "root" [rootFile "a.txt"])
        (Msg.KeyMsg "c")
      = Outcome.ret (some (sessionOn "root" [rootFile "a.txt"])) Cmd.nil ∧
    processLetter EvalOrder.callFirst (sessionOn "root" [rootFile "a.txt"]) "x"
      = (sessionOn "root" [rootFile "a.txt"], Cmd.nil) :=
  ⟨rfl, by decide,
    (undisplayed_letter_ignored EvalOrder.copyFirst ListLib.idle
      (sessionOn "root" [rootFile "a.txt"]) "c" rfl (by decide) (by decide) (by decide)).2.1
      (Or.inr (Or.inr (Or.inl rfl))),
    (undisplayed_letter_ignored EvalOrder.callFirst ListLib.idle
      (sessionOn "root" [rootFile "a.txt"]) "x" rfl (by decide) (by decide) (by decide)).1⟩

/-- The ids that prompt derivation offers are among "y", "n", "c", "a". When there is no
job to prompt for and the copy comes first, the items are the ones the list had. -/
theorem updateForJob_ids (ord : EvalOrder) (m : model) (i : item)
    (hi : i ∈ (m.updateForJob ord).1.list.items) :
    (i.id = "y" ∨ i.id = "n" ∨ i.id = "c" ∨ i.id = "a") ∨
      (ord = EvalOrder.copyFirst ∧ i ∈ m.list.items) := by
  unfold model.updateForJob at hi
  cases hj : m.job with
  | nil =>
    cases ord
    · simp [hj, model.returnSetItemsNil, ListModel.SetItems] at hi
    · right
      simp only [hj, model.returnSetItemsNil] at hi
      exact ⟨rfl, hi⟩
  | cons j s =>
    by_cases hdone : m.done = true
    · cases ord
      · simp [hj, hdone, model.returnSetItemsNil, ListModel.SetItems] at hi
      · right
        simp only [hj, hdone, if_true, model.returnSetItemsNil] at hi
        exact ⟨rfl, hi⟩
    · left
      by_cases hdir : j.entry.IsDir = true
      · simp [hj, hdone, hdir, ListModel.SetItems] at hi
        rcases hi with rfl | rfl | rfl <;> simp
      · simp [hj, hdone, hdir, ListModel.SetItems] at hi
        rcases hi with rfl | rfl <;> simp

/-- C15 (Enter equals typing the letter). Every id that prompt derivation offers is one of
"y", "n", "c", "a" (where it offers nothing and the copy comes first, the list keeps the
items it had). In a session whose selected choice has such an id `x`, `Update` returns for
the key "enter" exactly what it returns for the typed key `x`, the same model and the same
command, namely what `processLetter` returns for `x`; so this holds in every session
whose list items were set by prompt derivation, whichever choice is selected. -/
theorem enter_equals_letter (ord : EvalOrder) (lib : ListLib) (m : model) :
    (∀ (m0 : model) (i : item), i ∈ (m0.updateForJob ord).1.list.items →
      (i.id = "y" ∨ i.id = "n" ∨ i.id = "c" ∨ i.id = "a") ∨
        (ord = EvalOrder.copyFirst ∧ i ∈ m0.list.items)) ∧
    (∀ i : item, m.list.SelectedItem = some i →
      (i.id = "y" ∨ i.id = "n" ∨ i.id = "c" ∨ i.id = "a") →
      m.Update ord lib (Msg.KeyMsg "enter") = m.Update ord lib (Msg.KeyMsg i.id) ∧
      m.Update ord lib (Msg.KeyMsg "enter")
        = Outcome.ret (some (processLetter ord m i.id).1) (processLetter ord m i.id).2) ∧
    (∀ (m0 : model) (i : item), m.list.items = (m0.updateForJob ord).1.list.items →
      (ord = EvalOrder.copyFirst →
        ∀ i0 ∈ m0.list.items, i0.id = "y" ∨ i0.id = "n" ∨ i0.id = "c" ∨ i0.id = "a") →
      m.list.SelectedItem = some i →
      m.Update ord lib (Msg.KeyMsg "enter") = m.Update ord lib (Msg.KeyMsg i.id)) := by
  have key : ∀ i : item, m.list.SelectedItem = some i →
      (i.id = "y" ∨ i.id = "n" ∨ i.id = "c" ∨ i.id = "a") →
      m.Update ord lib (Msg.KeyMsg "enter") = m.Update ord lib (Msg.KeyMsg i.id) ∧
      m.Update ord lib (Msg.KeyMsg "enter")
        = Outcome.ret (some (processLetter ord m i.id).1) (processLetter ord m i.id).2 := by
    intro i hsel hid
    have henter : m.Update ord lib (Msg.KeyMsg "enter")
        = Outcome.ret (some (processLetter ord m i.id).1) (processLetter ord m i.id).2 := by
      simp [model.Update, hsel]
    exact ⟨by rw [henter, Update_letter ord lib m i.id hid], henter⟩
  refine ⟨updateForJob_ids ord, key, ?_⟩
  intro m0 i hitems hold hsel
  have hmem : i ∈ m.list.items := List.getElem?_mem hsel
  rw [hitems] at hmem
  rcases updateForJob_ids ord m0 i hmem with hid | ⟨hord, hin⟩
  · exact (key i hsel hid).1
  · exact (key i hsel (hold hord i hin)).1

/-- The directory `d` is shown with the cursor on its first choice, No: enter does what the
typed "n" does, it removes `d`. -/
theorem enter_equals_letter_witness :
    (sessionOn "root" [job.mk (dirEntry "d") ""]).list.SelectedItem
      = some (item.mk "n" "(N)o") ∧
    model.Update EvalOrder.callFirst ListLib.idle (sessionOn "root" [job.mk (dirEntry "d") ""])
        (Msg.KeyMsg "enter")
      = model.Update EvalOrder.callFirst ListLib.idle
          (sessionOn "root" [job.mk (dirEntry "d") ""]) (Msg.KeyMsg "n") ∧
    model.Update EvalOrder.callFirst ListLib.idle (sessionOn "root" [job.mk (dirEntry "d") ""])
        (Msg.KeyMsg "n")
      = Outcome.ret (some (sessionOn "root" [])) Cmd.nil ∧
    model.Update EvalOrder.copyFirst ListLib.idle (sessionOn "root" [job.mk (dirEntry "d") ""])
        (Msg.KeyMsg "enter")
      = model.Update EvalOrder.copyFirst ListLib.idle
          (sessionOn "root" [job.mk (dirEntry "d") ""]) (Msg.KeyMsg "n") ∧
    model.Update EvalOrder.copyFirst ListLib.idle (sessionOn "root" [job.mk (dirEntry "d") ""])
        (Msg.KeyMsg "n")
      = Outcome.ret (some (emptied (sessionOn "root" [job.mk (dirEntry "d") ""]))) Cmd.nil :=
  ⟨rfl,
    (enter_equals_letter EvalOrder.callFirst ListLib.idle
      (sessionOn "root" [job.mk (dirEntry "d") ""])).2.2
      (sessionOn "root" [job.mk (dirEntry "d") ""]) (item.mk "n" "(N)o") (by decide)
      (by decide) rfl,
    by decide,
    ((enter_equals_letter EvalOrder.copyFirst ListLib.idle
      (sessionOn "root" [job.mk (dirEntry "d") ""])).2.1
      (item.mk "n" "(N)o") rfl (Or.inr (Or.inl rfl))).1,
    by decide⟩

/-- C16 (Offered choices are exactly the accepted letters). In a session that is not done,
with a job on top, a letter among "y", "n", "c", "a" changes the stack or issues a listing
or a copy exactly when it is the id of one of the choices that prompt derivation produces
for that job. -/
theorem offered_iff_accepted (ord : EvalOrder) (m : model) (j : job) (s : List job) (letter : String)
    (hdone : m.done = false) (htop : m.job = j :: s)
    (hletter : letter = "y" ∨ letter = "n" ∨ letter = "c" ∨ letter = "a") :
    ((processLetter ord m letter).1.job ≠ m.job ∨ (processLetter ord m letter).2.isOp = true)
      ↔ letter ∈ (m.updateForJob ord).1.list.items.map item.id := by
  have hne : s ≠ j :: s := by
    intro h
    have := congrArg List.length h
    simp at this
  have hn : (processLetter ord m "n").1.job = s := by
    rw [(processLetter_no ord m).1, htop]; rfl
  by_cases hdir : j.entry.IsDir = true
  · have hitems : (m.updateForJob ord).1.list.items.map item.id = ["n", "c", "a"] := by
      simp [model.updateForJob, htop, hdone, hdir, ListModel.SetItems]
    rw [hitems]
    rcases hletter with rfl | rfl | rfl | rfl
    · simp [processLetter, htop, hdir, Cmd.isOp]
    · rw [hn, htop]; simp [hne]
    · simp [processLetter, htop, hdir, Cmd.isOp]
    · simp [processLetter, htop, hdir, Cmd.isOp]
  · have hitems : (m.updateForJob ord).1.list.items.map item.id = ["n", "y"] := by
      simp [model.updateForJob, htop, hdone, hdir, ListModel.SetItems]
    rw [hitems]
    rcases hletter with rfl | rfl | rfl | rfl
    · simp [processLetter, htop, hdir, Cmd.isOp]
    · rw [hn, htop]; simp [hne]
    · simp [processLetter, htop, hdir, Cmd.isOp]
    · simp [processLetter, htop, hdir, Cmd.isOp]

/-- The file `a.txt` on top: "y" is offered and issues the copy; "c" is not offered and
does nothing. -/
theorem offered_iff_accepted_witness :
    (sessionOn "root" [rootFile "a.txt"]).done = false ∧
    (sessionOn "root" [rootFile "a.txt"]).job = [rootFile "a.txt"] ∧
    ((processLetter EvalOrder.callFirst (sessionOn "root" [rootFile "a.txt"]) "y").1.job
          ≠ (sessionOn "root" [rootFile "a.txt"]).job ∨
        (processLetter EvalOrder.callFirst (sessionOn "root" [rootFile "a.txt"]) "y").2.isOp
          = true) ∧
    "c" ∉ ((sessionOn "root" [rootFile "a.txt"]).updateForJob EvalOrder.copyFirst
      ).1.list.items.map item.id ∧
    ¬ ((processLetter EvalOrder.copyFirst (sessionOn "root" [rootFile "a.txt"]) "c").1.job
          ≠ (sessionOn "root" [rootFile "a.txt"]).job ∨
        (processLetter EvalOrder.copyFirst (sessionOn "root" [rootFile "a.txt"]) "c").2.isOp
          = true) :=
  ⟨rfl, rfl,
    (offered_iff_accepted EvalOrder.callFirst (sessionOn "root" [rootFile "a.txt"])
      (rootFile "a.txt") [] "y" rfl rfl (Or.inl rfl)).mpr (by decide),
    by decide,
    fun h => absurd
      ((offered_iff_accepted EvalOrder.copyFirst (sessionOn "root" [rootFile "a.txt"])
        (rootFile "a.txt") [] "c" rfl rfl (Or.inr (Or.inr (Or.inl rfl)))).mp h) (by decide)⟩

/-- C17, the code at the failing inputs, in either order of evaluation. At startup, before
the root listing has arrived, the list has no items; "enter" makes `Update` return the nil
model and the run cannot continue. The same happens after the listing of an empty root,
and, when the call comes first, once the stack has emptied (the root lists `a.txt`, "n"
removes it). -/
theorem enter_without_selection_returns_nil :
    (DoIt.model "root").list.SelectedItem = none ∧
    model.Update EvalOrder.callFirst ListLib.idle (DoIt.model "root") (Msg.KeyMsg "enter")
      = Outcome.ret none Cmd.nil ∧
    model.Update EvalOrder.copyFirst ListLib.idle (DoIt.model "root") (Msg.KeyMsg "enter")
      = Outcome.ret none Cmd.nil ∧
    Session.step EvalOrder.callFirst ListLib.idle (Session.start "root") (Event.key "enter")
      = none ∧
    Session.step EvalOrder.copyFirst ListLib.idle (Session.start "root") (Event.key "enter")
      = none ∧
    Session.run EvalOrder.callFirst ListLib.idle (Session.start "root")
        [Event.result 0 (OS.fine "/cwd" [])]
      = some { m := sessionOn "root" [], pending := [] } ∧
    Session.run EvalOrder.copyFirst ListLib.idle (Session.start "root")
        [Event.result 0 (OS.fine "/cwd" [])]
      = some { m := sessionOn "root" [], pending := [] } ∧
    model.Update EvalOrder.callFirst ListLib.idle (sessionOn "root" []) (Msg.KeyMsg "enter")
      = Outcome.ret none Cmd.nil ∧
    model.Update EvalOrder.copyFirst ListLib.idle (sessionOn "root" []) (Msg.KeyMsg "enter")
      = Outcome.ret none Cmd.nil ∧
    Session.run EvalOrder.callFirst ListLib.idle (Session.start "root")
        [Event.result 0 OS.oneFile, Event.key "n"]
      = some { m := sessionOn "root" [], pending := [] } := by
  and_intros <;> decide

/-- C18, the code at the failing input, in either order of evaluation. The root lists the
single file `a.txt`; "y" issues its copy, "n" typed before the copy reports back removes
`a.txt`, and the copy then succeeds: `Update` handles the copy-succeeded event on the empty
stack and dereferences the nil job pointer. -/
theorem copy_result_on_empty_stack :
    Session.run EvalOrder.callFirst ListLib.idle (Session.start "root")
        [Event.result 0 OS.oneFile, Event.key "y", Event.key "n"]
      = some { m := sessionOn "root" []
               pending := [{ cmd := Cmd.doCopy "root" "a.txt"
                             initiator := some (rootFile "a.txt") }] } ∧
    Session.run EvalOrder.copyFirst ListLib.idle (Session.start "root")
        [Event.result 0 OS.oneFile, Event.key "y", Event.key "n"]
      = some { m := emptied (sessionOn "root" [rootFile "a.txt"])
               pending := [{ cmd := Cmd.doCopy "root" "a.txt"
                             initiator := some (rootFile "a.txt") }] } ∧
    (Cmd.run OS.oneFile (Cmd.doCopy "root" "a.txt")).map Prod.snd = some Msg.entryCopiedMsg ∧
    (sessionOn "root" []).job = [] ∧
    (emptied (sessionOn "root" [rootFile "a.txt"])).job = [] ∧
    model.Update EvalOrder.callFirst ListLib.idle (sessionOn "root" []) Msg.entryCopiedMsg
      = Outcome.nilDeref ∧
    model.Update EvalOrder.copyFirst ListLib.idle
        (emptied (sessionOn "root" [rootFile "a.txt"])) Msg.entryCopiedMsg
      = Outcome.nilDeref ∧
    Session.run EvalOrder.callFirst ListLib.idle (Session.start "root")
        [Event.result 0 OS.oneFile, Event.key "y", Event.key "n", Event.result 0 OS.oneFile]
      = none ∧
    Session.run EvalOrder.copyFirst ListLib.idle (Session.start "root")
        [Event.result 0 OS.oneFile, Event.key "y", Event.key "n", Event.result 0 OS.oneFile]
      = none := by
  and_intros <;> decide

end Gut
